import Mathlib

/-!
Verification of the GraphRAG knowledge-graph subsystem
(`src/graphrag_system.py`, class `GraphRAGSystem`).

The Python code is shallowly embedded: pure fragments become Lean
functions; the mutable system state (Neo4j graph contents, in-memory
tracking dict, persisted tracking blob, retriever flag) is threaded
explicitly.  External collaborators (sha256, the recursive text
splitter, the embedding provider) are abstracted as an `Env` of
functions; a fallible call is an `Option` result, `none` standing for a
raised exception.  Neo4j itself is modelled as a list of identified
chunk nodes plus a list of directed NEXT_CHUNK edges; the Cypher
statements issued by the code are translated one by one.
-/

set_option autoImplicit false

namespace GraphRAG

/-! ## Resilient retry wrapper (`_execute_with_retry`, lines 110-136)

An operation attempt either returns a value, raises one of the three
transient Neo4j error classes (`ServiceUnavailable`, `SessionExpired`,
`TransientError`), or raises any other (non-transient) exception.
`_ensure_connection` and the mid-loop reconnect are assumed not to
raise (the code swallows reconnect failures; connectivity verification
failures would escape the wrapper but are outside the claims). -/

inductive OpResult (α : Type) where
  | ok (v : α)
  | transient (e : String)
  | fatal (e : String)
deriving DecidableEq

inductive RetryOutcome (α : Type) where
  | value (v : α)
  | raisedTransient (e : String)
  | raisedFatal (e : String)
  | raisedGeneric
deriving DecidableEq

structure RetryTrace (α : Type) where
  attemptsMade : Nat
  sleeps : List ℚ
  outcome : RetryOutcome α
deriving DecidableEq

/-- The `for attempt in range(max_retry_attempts)` loop of
`_execute_with_retry`.  `remaining` is the number of loop iterations
left, `attempt = maxA - remaining` the current 0-based attempt number,
`last` the last transient exception caught, `made` the attempts made so
far and `sleeps` the backoff waits performed so far (in order).  On a
transient failure before the final attempt the code sleeps
`retry_delay * 2 ** attempt` seconds and retries; when the loop ends it
re-raises the last transient error (or a generic `Exception` if no
attempt ever ran). -/
def retryAux {α : Type} (delay : ℚ) (maxA : Nat) (op : Nat → OpResult α) :
    Nat → Nat → Option String → Nat → List ℚ → RetryTrace α
  | 0, _, last, made, sleeps =>
      { attemptsMade := made, sleeps := sleeps,
        outcome := match last with
          | some e => RetryOutcome.raisedTransient e
          | none => RetryOutcome.raisedGeneric }
  | remaining + 1, attempt, _, made, sleeps =>
      match op attempt with
      | OpResult.ok v =>
          { attemptsMade := made + 1, sleeps := sleeps, outcome := RetryOutcome.value v }
      | OpResult.fatal e =>
          { attemptsMade := made + 1, sleeps := sleeps, outcome := RetryOutcome.raisedFatal e }
      | OpResult.transient e =>
          if attempt < maxA - 1 then
            retryAux delay maxA op remaining (attempt + 1) (some e) (made + 1)
              (sleeps ++ [delay * 2 ^ attempt])
          else
            retryAux delay maxA op remaining (attempt + 1) (some e) (made + 1) sleeps

/-- `_execute_with_retry(operation)`: run the loop from attempt 0. -/
def executeWithRetry {α : Type} (maxA : Nat) (delay : ℚ) (op : Nat → OpResult α) :
    RetryTrace α :=
  retryAux delay maxA op maxA 0 none 0 []

/-- `GraphRAGSystem.NO_DATA_MESSAGE` (line 20). -/
def NO_DATA_MESSAGE : String := "No relevant information found in the knowledge base."

/-- `get_context_for_query(query, k)` (lines 537-583).  If the retriever
was never initialized the fixed sentinel is returned.  Otherwise the
vector query (closure `query_context`, parameterized by the query text
and `k`) runs through `_execute_with_retry`; any exception escaping the
wrapper — including the re-raised transient error after retry
exhaustion — is caught by the enclosing `except Exception` and
converted to the same sentinel string. -/
def getContextForQuery (query : String) (k : Nat) (retrieverInit : Bool)
    (maxA : Nat) (delay : ℚ) (queryOp : String → Nat → Nat → OpResult String) : String :=
  if !retrieverInit then NO_DATA_MESSAGE
  else
    match (executeWithRetry maxA delay (queryOp query k)).outcome with
    | RetryOutcome.value s => s
    | RetryOutcome.raisedTransient _ => NO_DATA_MESSAGE
    | RetryOutcome.raisedFatal _ => NO_DATA_MESSAGE
    | RetryOutcome.raisedGeneric => NO_DATA_MESSAGE

/-! ## Files, documents and loading (`_load_pdf_document`, `_load_markdown_document`)

A source file is a path plus its on-disk content; `readOk = false`
models a file whose `open` raises (the per-item unreadable case).  PDF
content is a list of page texts (what `page.extract_text()` returns per
page); Markdown content is the raw text. -/

inductive FileContent where
  | pdf (pages : List String)
  | md (text : String)
deriving DecidableEq

structure SrcFile where
  path : String
  readOk : Bool
  content : FileContent
deriving DecidableEq

/-- Split a character list on a separator character (the pieces between
separators, like Python `str.split(sep)`), by structural recursion so
that concrete instances reduce in the kernel. -/
def fields (c : Char) : List Char → List (List Char)
  | [] => [[]]
  | x :: xs =>
      match fields c xs with
      | [] => [[]]
      | r :: rs => if x == c then [] :: r :: rs else (x :: r) :: rs

/-- `Path(p).name`: the final path component. -/
def baseName (p : String) : String :=
  String.mk ((fields '/' p.toList).getLastD [])

/-- Python falsiness of `text` / `text.strip()`: the string is empty or
whitespace only.  This is the page-skipping test `if text and
text.strip()` of the PDF loader. -/
def isBlank (s : String) : Bool :=
  s.toList.all Char.isWhitespace

/-- An in-memory `langchain` `Document` as built by the loaders:
`page_content` plus the `source` / `filename` / `type` metadata. -/
structure Doc where
  text : String
  source : String
  filename : String
  ftype : String
deriving DecidableEq

/-- `_load_pdf_document` / `_load_markdown_document` (lines 291-334),
as dispatched by `_load_documents_from_files`.  A raised exception
(unreadable file) is caught and turned into `None`.  For a PDF, pages
whose extracted text is empty after `strip()` are dropped, the rest are
joined with a blank line, and a PDF with no non-blank page yields
`None`.  A readable Markdown file always yields a Document, even when
its content is empty — there is no emptiness check on the Markdown
path. -/
def loadDocument (f : SrcFile) : Option Doc :=
  if !f.readOk then none
  else
    match f.content with
    | FileContent.pdf pages =>
        let nonBlank := pages.filter (fun t => !(isBlank t))
        if nonBlank.isEmpty then none
        else some { text := String.intercalate "\n\n" nonBlank, source := f.path,
                    filename := baseName f.path, ftype := "pdf" }
    | FileContent.md text =>
        some { text := text, source := f.path, filename := baseName f.path,
               ftype := "markdown" }

/-! ## External collaborators -/

/-- The injected pure collaborators: `hashFn` is sha256 over the file's
bytes (`_get_file_metadata`), `splitFn` is
`RecursiveCharacterTextSplitter` applied to one document's text, and
`embedFn` is `embedder.embed_query`; `none` models an embedding call
that raises (equivalently, a chunk whose retried CREATE exhausts its
attempts — both are caught by the same per-chunk `try`). -/
structure Env where
  hashFn : FileContent → String
  splitFn : String → List String
  embedFn : String → Option (List Int)

/-! ## Tracking map (`processed_files` dict and its persisted JSON blob) -/

/-- Python dict update `d[k] = v`: replace the entry in place if the
key exists (insertion order kept), else append.  A dict never holds a
duplicate key, so replacing the first occurrence is exact. -/
def setTrack : List (String × String) → String → String → List (String × String)
  | [], p, c => [(p, c)]
  | kv :: rest, p, c => if kv.1 == p then (p, c) :: rest else kv :: setTrack rest p c

/-- Python `del d[k]`. -/
def delTrack (tr : List (String × String)) (p : String) : List (String × String) :=
  tr.filter (fun kv => !(kv.1 == p))

/-- Dict lookup of the stored checksum for a path. -/
def lookupTrack : List (String × String) → String → Option String
  | [], _ => none
  | kv :: rest, p => if kv.1 == p then some kv.2 else lookupTrack rest p

/-- `_get_file_metadata` (lines 138-143): sha256 the file's bytes;
raises (`none`) if the file cannot be opened. -/
def getFileMetadata (env : Env) (f : SrcFile) : Option (String × String) :=
  if f.readOk then some (f.path, env.hashFn f.content) else none

/-- `_file_needs_processing` (lines 145-153): an untracked path needs
processing without touching the file; a tracked path is re-hashed
(raising, `none`, if unreadable) and compared to the stored checksum. -/
def fileNeedsProcessing (env : Env) (tr : List (String × String)) (f : SrcFile) :
    Option Bool :=
  match lookupTrack tr f.path with
  | none => some true
  | some stored =>
      match getFileMetadata env f with
      | none => none
      | some meta => some (!(meta.2 == stored))

/-- `_categorize_files` (lines 257-273): split the directory listing
into `(files_to_process, unchanged_files)` preserving order;
`force_rebuild` short-circuits before any hashing.  `none` models the
classification raising on an unreadable tracked file. -/
def categorizeFiles (env : Env) (tr : List (String × String)) (force : Bool) :
    List SrcFile → Option (List SrcFile × List SrcFile)
  | [] => some ([], [])
  | f :: rest =>
      match (if force then some true else fileNeedsProcessing env tr f) with
      | none => none
      | some b =>
          match categorizeFiles env tr force rest with
          | none => none
          | some (tp, un) => some (if b then (f :: tp, un) else (tp, f :: un))

/-! ## Graph store (Neo4j `Chunk` nodes and `NEXT_CHUNK` edges)

Nodes carry a database-assigned identity; properties follow the CREATE
statement in `_create_chunk_nodes` exactly.  Edges are ordered pairs of
node ids. -/

structure Chunk where
  text : String
  source : String
  filename : String
  chunkIndex : Nat
  embedding : List Int
deriving DecidableEq

structure GraphState where
  nextId : Nat
  nodes : List (Nat × Chunk)
  edges : List (Nat × Nat)
deriving DecidableEq

def GraphState.empty : GraphState := { nextId := 0, nodes := [], edges := [] }

/-- `MATCH (c:Chunk {source: $source}) DETACH DELETE c`: remove every
node whose `source` property matches, together with every edge incident
to a removed node. -/
def detachDeleteBySource (s : String) (g : GraphState) : GraphState :=
  let removed := (g.nodes.filter (fun n => n.2.source == s)).map (fun n => n.1)
  { g with
    nodes := g.nodes.filter (fun n => !(n.2.source == s)),
    edges := g.edges.filter (fun e => !(removed.contains e.1) && !(removed.contains e.2)) }

/-- `CREATE (c:Chunk {...})`: a fresh node with the next identity. -/
def createChunk (c : Chunk) (g : GraphState) : GraphState :=
  { g with nextId := g.nextId + 1, nodes := g.nodes ++ [(g.nextId, c)] }

/-- The row set of the `MATCH (c1) MATCH (c2) WHERE c2.chunk_index =
c1.chunk_index + 1` join in `_create_sequential_relationships`, as
`(c1.id, c2.id)` pairs in row order. -/
def nextPairs (s : String) (nodes : List (Nat × Chunk)) : List (Nat × Nat) :=
  nodes.flatMap (fun a =>
    if a.2.source == s then
      nodes.filterMap (fun b =>
        if b.2.source == s && b.2.chunkIndex == a.2.chunkIndex + 1
        then some (a.1, b.1) else none)
    else [])

/-- `MERGE` of one relationship: create it unless it already exists. -/
def addEdgeIfAbsent (es : List (Nat × Nat)) (p : Nat × Nat) : List (Nat × Nat) :=
  if es.contains p then es else es ++ [p]

/-- One `session.run` of the sequential-relationship statement for a
given source path (lines 400-410). -/
def mergeNextChunkEdges (s : String) (g : GraphState) : GraphState :=
  { g with edges := (nextPairs s g.nodes).foldl addEdgeIfAbsent g.edges }

/-! ## System state and build pipeline -/

/-- The mutable state of a `GraphRAGSystem` instance that the claims
observe: the graph store, the in-memory `processed_files` dict, the
blob last written through `storage` (`_save_tracking`), and whether
`self.retriever` has been initialized. -/
structure SysState where
  graph : GraphState
  tracking : List (String × String)
  persisted : List (String × String)
  retrieverInit : Bool
deriving DecidableEq

def SysState.empty : SysState :=
  { graph := GraphState.empty, tracking := [], persisted := [], retrieverInit := false }

/-- Observable events of the deleted-files phase, for the persistence
ordering claims: one `deleteChunks` per tracked-but-gone path, one
`saveTracking` per `_save_tracking` call. -/
inductive BuildEvent where
  | deleteChunks (path : String)
  | saveTracking
deriving DecidableEq

/-- The tracked paths no longer present on disk
(`tracked_file_paths - current_file_paths`; Python set iteration order
is unspecified, fixed here to tracking-insertion order — no claim
depends on the order within this phase). -/
def deletedPaths (tr : List (String × String)) (currentPaths : List String) :
    List String :=
  (tr.map (fun kv => kv.1)).filter (fun p => !(currentPaths.contains p))

/-- `_remove_deleted_files` (lines 233-255) with its event trace: if no
tracked path disappeared, return immediately (no save).  Otherwise, for
each deleted path in turn, DETACH DELETE its chunks and drop its
tracking record; `_save_tracking` is called once, after the loop. -/
def removeDeletedFiles (s : SysState) (currentPaths : List String) :
    SysState × List BuildEvent :=
  let deleted := deletedPaths s.tracking currentPaths
  if deleted.isEmpty then (s, [])
  else
    let g := deleted.foldl (fun g p => detachDeleteBySource p g) s.graph
    let tr := deleted.foldl (fun tr p => delTrack tr p) s.tracking
    ({ s with graph := g, tracking := tr, persisted := tr },
     deleted.map BuildEvent.deleteChunks ++ [BuildEvent.saveTracking])

/-- `text_splitter.split_documents(documents)`: split each document's
text, every resulting chunk keeping its document's metadata, and
concatenate in document order. -/
def splitDocuments (env : Env) (docs : List Doc) : List Doc :=
  docs.flatMap (fun d => (env.splitFn d.text).map (fun t => { d with text := t }))

/-- The chunk node created for split `d` at global position `idx`
(`chunk_index` is the index of the split in the whole batch, not within
its file). -/
def chunkOf (d : Doc) (idx : Nat) (emb : List Int) : Chunk :=
  { text := d.text, source := d.source, filename := d.filename,
    chunkIndex := idx, embedding := emb }

/-- The per-split loop of `_create_chunk_nodes` (lines 350-393): embed
then CREATE, each failure (embedding raise or retry exhaustion) caught
and skipped, the global index advancing over every split either way.
The `batch_size = 10` slicing is invisible to the state because
`enumerate(batch, start=i)` keeps the global index. -/
def createChunkNodesAux (env : Env) : List Doc → Nat → GraphState × Nat → GraphState × Nat
  | [], _, acc => acc
  | d :: rest, idx, (g, cnt) =>
      match env.embedFn d.text with
      | some emb => createChunkNodesAux env rest (idx + 1) (createChunk (chunkOf d idx emb) g, cnt + 1)
      | none => createChunkNodesAux env rest (idx + 1) (g, cnt)

/-- `_create_chunk_nodes(splits)`: returns the updated graph and the
count of successfully created chunks. -/
def createChunkNodes (env : Env) (splits : List Doc) (g : GraphState) : GraphState × Nat :=
  createChunkNodesAux env splits 0 (g, 0)

/-- The marking loop of `build_knowledge_graph` (lines 483-485): every
file in `files_to_process` is re-hashed and recorded, whether or not
its chunks were all created.  The Bool is `false` when
`_get_file_metadata` raises on an unreadable file, aborting the build
with the marks made so far only in memory. -/
def markFilesProcessed (env : Env) : List SrcFile → List (String × String) →
    List (String × String) × Bool
  | [], tr => (tr, true)
  | f :: rest, tr =>
      match getFileMetadata env f with
      | none => (tr, false)
      | some meta => markFilesProcessed env rest (setTrack tr meta.1 meta.2)

/-- The state after the deleted-files phase of a build
(`build_knowledge_graph` line 442). -/
def buildS1 (s : SysState) (files : List SrcFile) : SysState :=
  (removeDeletedFiles s (files.map (fun f => f.path))).1

/-- `build_knowledge_graph(directory, force_rebuild)` (lines 426-491).
`dir` is `none` when the directory does not exist, else the recursive
`*.pdf` + `*.md` listing.  The returned Bool is `true` when the call
returns normally, `false` when an exception escapes (hashing an
unreadable file during classification or marking); graph operations and
storage writes themselves are assumed available (their transient-retry
behavior is modelled separately by `executeWithRetry`).  The vector
index creation (step before marking) does not touch nodes, edges or
tracking and is omitted. -/
def build (env : Env) (dir : Option (List SrcFile)) (force : Bool) (s : SysState) :
    SysState × Bool :=
  match dir with
  | none => (s, true)
  | some files =>
      let s1 := buildS1 s files
      if files.isEmpty then (s1, true)
      else
        match categorizeFiles env s1.tracking force files with
        | none => (s1, false)
        | some (toProcess, _unchanged) =>
            if toProcess.isEmpty then ({ s1 with retrieverInit := true }, true)
            else
              let docs := toProcess.filterMap loadDocument
              if docs.isEmpty then (s1, true)
              else
                let splits := splitDocuments env docs
                let g1 := toProcess.foldl (fun g f => detachDeleteBySource f.path g) s1.graph
                let g2 := (createChunkNodes env splits g1).1
                let g3 := toProcess.foldl (fun g f => mergeNextChunkEdges f.path g) g2
                match markFilesProcessed env toProcess s1.tracking with
                | (tr, true) =>
                    ({ graph := g3, tracking := tr, persisted := tr, retrieverInit := true }, true)
                | (tr, false) =>
                    ({ s1 with graph := g3, tracking := tr }, false)

/-! ## Observation helpers used by the theorem statements -/

/-- Whether a build event is a chunk-deletion batch. -/
def isDelete : BuildEvent → Bool
  | BuildEvent.deleteChunks _ => true
  | BuildEvent.saveTracking => false

/-- The persistence discipline asserted by the spec for the
deleted-files phase: strictly between any two chunk-deletion batches a
`saveTracking` occurs (so no second deletion starts while an earlier
removal is unpersisted). -/
def saveBetweenDeletes (t : List BuildEvent) : Prop :=
  ∀ i, i < t.length → ∀ j, j < t.length → i < j →
    isDelete (t.getD i BuildEvent.saveTracking) = true →
    isDelete (t.getD j BuildEvent.saveTracking) = true →
    ((t.drop (i + 1)).take (j - i - 1)).contains BuildEvent.saveTracking = true

/-- The source property of the node a given id refers to. -/
def idSource (g : GraphState) (i : Nat) : Option String :=
  (g.nodes.find? (fun n => n.1 == i)).map (fun n => n.2.source)

/-- The nodes owned by a source path. -/
def nodesOfSource (g : GraphState) (s : String) : List (Nat × Chunk) :=
  g.nodes.filter (fun n => n.2.source == s)

/-- The `NEXT_CHUNK` edges both of whose endpoints are chunks of the
given source path. -/
def edgesAmong (g : GraphState) (s : String) : List (Nat × Nat) :=
  g.edges.filter (fun e => idSource g e.1 == some s && idSource g e.2 == some s)

/-- Well-formedness of a graph state, true of the empty store and
preserved by every operation the build issues: node ids are distinct
and below the id counter, and every edge joins two existing nodes of
the same source (NEXT_CHUNK edges are only ever created by the
same-source `MERGE`). -/
def GWF (g : GraphState) : Prop :=
  (g.nodes.map (fun n => n.1)).Nodup ∧
  (∀ n ∈ g.nodes, n.1 < g.nextId) ∧
  (∀ e ∈ g.edges, ∃ a ∈ g.nodes, ∃ b ∈ g.nodes,
    e = (a.1, b.1) ∧ a.2.source = b.2.source)

/-- The expected node run for one document's chunks: ids and chunk
indices both increase consecutively from `base` and `off`. -/
def chunkRun (env : Env) (d : Doc) : Nat → Nat → List String → List (Nat × Chunk)
  | _, _, [] => []
  | base, off, t :: rest =>
      (base, { text := t, source := d.source, filename := d.filename, chunkIndex := off,
               embedding := (env.embedFn t).getD [] }) :: chunkRun env d (base + 1) (off + 1) rest

/-- The consecutive id pairs `(base+i, base+i+1)` for `i < n-1`: the
expected NEXT_CHUNK edges of a file whose `n` chunks got ids
`base..base+n-1`. -/
def consecPairs (base n : Nat) : List (Nat × Nat) :=
  (List.range (n - 1)).map (fun i => (base + i, base + i + 1))

/-- The nodes the chunk-creation loop appends for a list of splits,
given the first fresh id and the first global chunk index (closed form
of `createChunkNodesAux` when every embedding succeeds). -/
def mkNodes (env : Env) : List Doc → Nat → Nat → List (Nat × Chunk)
  | [], _, _ => []
  | d :: rest, base, idx =>
      (base, chunkOf d idx ((env.embedFn d.text).getD [])) ::
        mkNodes env rest (base + 1) (idx + 1)

/-- The NEXT_CHUNK edges the sequential-relationship phase creates for
a document list whose chunks got consecutive ids starting at `base`:
per document, the consecutive pairs of its own segment. -/
def allPairs (env : Env) : List Doc → Nat → List (Nat × Nat)
  | [], _ => []
  | d :: rest, base =>
      consecPairs base (env.splitFn d.text).length ++
        allPairs env rest (base + (env.splitFn d.text).length)

/-! ## Concrete instances used by witnesses and counterexamples -/

/-- A concrete collaborator environment: a structural content hash, a
whitespace splitter, and an always-succeeding length embedding. -/
def exEnv : Env :=
  { hashFn := fun c => match c with
      | FileContent.pdf ps => "P:" ++ String.intercalate "," ps
      | FileContent.md t => "M:" ++ t,
    splitFn := fun t => if t == "" then [] else (fields ' ' t.toList).map String.mk,
    embedFn := fun t => some [Int.ofNat t.length] }

/-- `exEnv` with the embedding call failing on the text "bad". -/
def exEnvFail : Env :=
  { exEnv with embedFn := fun t => if t == "bad" then none else some [Int.ofNat t.length] }

def fileA : SrcFile := { path := "kb/a.md", readOk := true, content := FileContent.md "x y z" }

def fileB : SrcFile := { path := "kb/b.md", readOk := true, content := FileContent.md "u v" }

/-- A readable PDF whose single page has no extractable text. -/
def fileBlankPdf : SrcFile :=
  { path := "kb/empty.pdf", readOk := true, content := FileContent.pdf [""] }

/-- A readable Markdown file whose single chunk's embedding fails. -/
def fileBadChunk : SrcFile :=
  { path := "kb/f.md", readOk := true, content := FileContent.md "bad" }

/-- A state tracking two files, both about to be detected as deleted. -/
def sTwoTracked : SysState :=
  { SysState.empty with tracking := [("kb/x.md", "c1"), ("kb/y.md", "c2")] }

/-- The indexed state after building `fileA` and `fileB` from scratch. -/
def sAB : SysState := (build exEnv (some [fileA, fileB]) false SysState.empty).1

/-! # Theorems -/

/-! ## Retry wrapper -/

/-- On an operation that raises a transient error at every attempt, the
retry loop runs all its remaining iterations, sleeps before every
attempt but the last, and ends by re-raising the transient error of the
final attempt. -/
theorem retryAux_allTransient {α : Type} (delay : ℚ) (maxA : Nat) (op : Nat → OpResult α)
    (e : Nat → String) (h : ∀ i, op i = OpResult.transient (e i)) :
    ∀ remaining attempt last made sleeps, remaining ≠ 0 → attempt + remaining = maxA →
    retryAux delay maxA op remaining attempt last made sleeps =
      { attemptsMade := made + remaining,
        sleeps := sleeps ++ (List.range' attempt (remaining - 1)).map (fun i => delay * 2 ^ i),
        outcome := RetryOutcome.raisedTransient (e (maxA - 1)) } := by
  intro remaining
  induction remaining with
  | zero => intro _ _ _ _ hne _; exact absurd rfl hne
  | succ rem ih =>
    intro attempt last made sleeps _ hsum
    rw [retryAux, h attempt]
    cases rem with
    | zero =>
      have hA : attempt = maxA - 1 := by omega
      have hnlt : ¬ (attempt < maxA - 1) := by omega
      simp only [if_neg hnlt]
      rw [retryAux]
      simp [hA]
    | succ r =>
      have hlt : attempt < maxA - 1 := by omega
      simp only [if_pos hlt]
      rw [ih (attempt + 1) (some (e attempt)) (made + 1)
        (sleeps ++ [delay * 2 ^ attempt]) (by simp) (by omega)]
      simp only [RetryTrace.mk.injEq]
      refine ⟨by omega, ?_, trivial⟩
      simp [List.range'_succ, List.append_assoc]

/-- Claim C4: an operation failing with a transient error on every
attempt is attempted exactly `max_retry_attempts` times, with
`max_retry_attempts - 1` backoff sleeps, the i-th wait being
`retry_delay * 2 ^ i`, after which the last transient error is
re-raised unchanged; a non-transient error propagates immediately on
the first attempt with no retry and no sleep. -/
theorem executeWithRetry_retry_bound {α : Type} (maxA : Nat) (delay : ℚ)
    (op : Nat → OpResult α) (e : Nat → String) (op2 : Nat → OpResult α) (f : String)
    (hA : 0 < maxA) (h : ∀ i, op i = OpResult.transient (e i))
    (h2 : op2 0 = OpResult.fatal f) :
    executeWithRetry maxA delay op =
      { attemptsMade := maxA,
        sleeps := (List.range (maxA - 1)).map (fun i => delay * 2 ^ i),
        outcome := RetryOutcome.raisedTransient (e (maxA - 1)) } ∧
    executeWithRetry maxA delay op2 =
      { attemptsMade := 1, sleeps := [], outcome := RetryOutcome.raisedFatal f } := by
  constructor
  · rw [executeWithRetry,
      retryAux_allTransient delay maxA op e h maxA 0 none 0 [] (by omega) (by omega)]
    simp [List.range_eq_range']
  · match maxA, hA with
    | m + 1, _ => rw [executeWithRetry, retryAux, h2]

/-- Witness for C4 at `max_retry_attempts = 3`, `retry_delay = 1`:
three attempts, sleeps of 1 and 2 seconds, the `ServiceUnavailable`
re-raised; and a `ValueError`-like failure propagating after one
attempt with no sleep. -/
theorem executeWithRetry_retry_bound_witness :
    executeWithRetry (α := Unit) 3 1 (fun _ => OpResult.transient "ServiceUnavailable") =
      { attemptsMade := 3, sleeps := [1, 2],
        outcome := RetryOutcome.raisedTransient "ServiceUnavailable" } ∧
    executeWithRetry (α := Unit) 3 1 (fun _ => OpResult.fatal "ValueError") =
      { attemptsMade := 1, sleeps := [], outcome := RetryOutcome.raisedFatal "ValueError" } := by
  have h := executeWithRetry_retry_bound (α := Unit) 3 1
    (fun _ => OpResult.transient "ServiceUnavailable") (fun _ => "ServiceUnavailable")
    (fun _ => OpResult.fatal "ValueError") "ValueError"
    (by decide) (fun _ => rfl) rfl
  refine ⟨?_, h.2⟩
  rw [h.1]
  norm_num [List.range_succ]

/-! ## Queries -/

/-- Claim C8: before any successful build the retriever is not
initialized, and `get_context_for_query` returns the fixed no-data
sentinel for every query, `k` and query outcome, raising nothing (the
model is a total function into strings). -/
theorem getContextForQuery_cold_sentinel (query : String) (k maxA : Nat) (delay : ℚ)
    (queryOp : String → Nat → Nat → OpResult String) :
    getContextForQuery query k false maxA delay queryOp = NO_DATA_MESSAGE := rfl

/-- Counterexample to claim C5: with the retriever initialized and the
graph query failing with `ServiceUnavailable` on all three attempts,
the retry wrapper does re-raise the exhausted transient error, but
`get_context_for_query` catches it and returns the ordinary no-data
sentinel — the same normal-looking string a query with no matches
returns — instead of surfacing the failure. -/
theorem getContextForQuery_swallows_exhausted_transient :
    getContextForQuery "q" 10 true 3 1
        (fun _ _ _ => OpResult.transient "ServiceUnavailable") = NO_DATA_MESSAGE ∧
    (executeWithRetry 3 1
        ((fun (_ : String) (_ _ : Nat) => OpResult.transient (α := String) "ServiceUnavailable") "q" 10)).outcome =
      RetryOutcome.raisedTransient "ServiceUnavailable" := by
  exact ⟨rfl, rfl⟩

/-- Claim C5 as amended: if the graph query fails with a transient
error on every retry attempt, `get_context_for_query` does not raise;
it catches the exhausted error and returns the no-data sentinel, so the
failure is indistinguishable from an empty result. -/
theorem getContextForQuery_exhausted_returns_sentinel (query : String) (k maxA : Nat)
    (delay : ℚ) (queryOp : String → Nat → Nat → OpResult String) (e : Nat → String)
    (hA : 0 < maxA) (h : ∀ i, queryOp query k i = OpResult.transient (e i)) :
    getContextForQuery query k true maxA delay queryOp = NO_DATA_MESSAGE := by
  rw [getContextForQuery]
  rw [executeWithRetry,
    retryAux_allTransient delay maxA (queryOp query k) e h maxA 0 none 0 [] (by omega) (by omega)]
  simp

/-- Witness for the amended C5 at a concrete always-transient query. -/
theorem getContextForQuery_exhausted_returns_sentinel_witness :
    getContextForQuery "corp lore" 5 true 2 1
      (fun _ _ _ => OpResult.transient "SessionExpired") = NO_DATA_MESSAGE :=
  getContextForQuery_exhausted_returns_sentinel "corp lore" 5 2 1
    (fun _ _ _ => OpResult.transient "SessionExpired") (fun _ => "SessionExpired")
    (by decide) (fun _ => rfl)

/-! ## Document loading -/

/-- Counterexample to claim C9: an empty Markdown file does contribute
a Document to the chunking pipeline — the loader has no emptiness check
on the Markdown path, so a file yielding no extractable text is not
skipped. -/
theorem loadDocument_empty_markdown_document :
    loadDocument { path := "kb/empty.md", readOk := true, content := FileContent.md "" } =
      some { text := "", source := "kb/empty.md", filename := "empty.md",
             ftype := "markdown" } ∧
    loadDocument { path := "kb/empty.md", readOk := true, content := FileContent.md "" } ≠
      none := by
  exact ⟨by decide, by decide⟩

/-- Claim C9 as amended: a PDF whose pages all strip to empty text is
skipped (no Document, no error), and any unreadable file is likewise
skipped; but a readable Markdown file always produces a Document with
its raw content, even when that content is empty. -/
theorem loadDocument_empty_text_policy (f : SrcFile) (pages : List String)
    (hc : f.content = FileContent.pdf pages) (hr : f.readOk = true)
    (hblank : ∀ t ∈ pages, isBlank t = true) :
    loadDocument f = none ∧
    (∀ g : SrcFile, ∀ txt, g.readOk = true → g.content = FileContent.md txt →
      loadDocument g = some { text := txt, source := g.path,
                              filename := baseName g.path, ftype := "markdown" }) ∧
    (∀ g : SrcFile, g.readOk = false → loadDocument g = none) := by
  refine ⟨?_, ?_, ?_⟩
  · rw [loadDocument, hr, hc]
    have hfil : pages.filter (fun t => !(isBlank t)) = [] := by
      rw [List.filter_eq_nil_iff]
      intro t ht
      simp [hblank t ht]
    simp [hfil]
  · intro g txt hg hc2
    simp [loadDocument, hg, hc2]
  · intro g hg
    simp [loadDocument, hg]

/-- Witness for the amended C9: a PDF with one whitespace-only page and
one empty page yields no Document. -/
theorem loadDocument_empty_text_policy_witness :
    loadDocument { path := "kb/blank.pdf", readOk := true,
                   content := FileContent.pdf [" ", ""] } = none :=
  (loadDocument_empty_text_policy
    { path := "kb/blank.pdf", readOk := true, content := FileContent.pdf [" ", ""] }
    [" ", ""] rfl rfl (by decide)).1

/-! ## Deleted-files phase -/

/-- Counterexample to claim C7: with two tracked files both deleted
from disk, the deletion phase runs the second file's chunk-deletion
batch while the first file's tracking-record removal is still
unpersisted — the only `saveTracking` comes after both deletions, so
the spec's per-batch persistence discipline fails. -/
theorem removeDeletedFiles_no_save_between_deletes :
    (removeDeletedFiles sTwoTracked []).2 =
      [BuildEvent.deleteChunks "kb/x.md", BuildEvent.deleteChunks "kb/y.md",
       BuildEvent.saveTracking] ∧
    ¬ saveBetweenDeletes (removeDeletedFiles sTwoTracked []).2 := by
  have htrace : (removeDeletedFiles sTwoTracked []).2 =
      [BuildEvent.deleteChunks "kb/x.md", BuildEvent.deleteChunks "kb/y.md",
       BuildEvent.saveTracking] := by decide
  refine ⟨htrace, ?_⟩
  intro hsb
  rw [htrace] at hsb
  exact absurd (hsb 0 (by decide) 1 (by decide) (by decide) (by decide) (by decide))
    (by decide)

/-- Claim C7 as amended: during the deleted-files phase the
TrackingStore is persisted exactly once, after all deleted files'
chunk-deletion batches and record removals; the save is the last event,
so a crash mid-phase can lose every record removal of the phase (safe
only because chunk deletion is idempotent), not merely the in-flight
file's. -/
theorem removeDeletedFiles_single_save_after_deletes (s : SysState)
    (currentPaths : List String)
    (hne : deletedPaths s.tracking currentPaths ≠ []) :
    (removeDeletedFiles s currentPaths).2 =
      (deletedPaths s.tracking currentPaths).map BuildEvent.deleteChunks ++
        [BuildEvent.saveTracking] ∧
    (removeDeletedFiles s currentPaths).2.count BuildEvent.saveTracking = 1 ∧
    (removeDeletedFiles s currentPaths).2.getLast? = some BuildEvent.saveTracking ∧
    (removeDeletedFiles s currentPaths).1.persisted =
      (removeDeletedFiles s currentPaths).1.tracking := by
  have hiE : (deletedPaths s.tracking currentPaths).isEmpty = false := by
    cases hd : deletedPaths s.tracking currentPaths with
    | nil => exact absurd hd hne
    | cons a l => rfl
  have h0 : BuildEvent.saveTracking ∉
      (deletedPaths s.tracking currentPaths).map BuildEvent.deleteChunks := by
    simp [List.mem_map]
  refine ⟨?_, ?_, ?_, ?_⟩
  · simp [removeDeletedFiles, hiE]
  · simp [removeDeletedFiles, hiE, List.count_append, List.count_eq_zero.mpr h0]
  · simp [removeDeletedFiles, hiE, List.getLast?_concat]
  · simp [removeDeletedFiles, hiE]

/-- Witness for the amended C7 at the concrete two-tracked-files state. -/
theorem removeDeletedFiles_single_save_after_deletes_witness :
    deletedPaths sTwoTracked.tracking [] ≠ [] ∧
    (removeDeletedFiles sTwoTracked []).2 =
      (deletedPaths sTwoTracked.tracking []).map BuildEvent.deleteChunks ++
        [BuildEvent.saveTracking] :=
  ⟨by decide, (removeDeletedFiles_single_save_after_deletes sTwoTracked [] (by decide)).1⟩

/-! ## Fold lemmas for the deletion phases -/

theorem foldl_detachDelete_nodes (ps : List String) (g : GraphState) :
    (ps.foldl (fun g p => detachDeleteBySource p g) g).nodes =
      g.nodes.filter (fun n => !(ps.contains n.2.source)) := by
  induction ps generalizing g with
  | nil => simp
  | cons p rest ih =>
    rw [List.foldl_cons, ih, detachDeleteBySource]
    simp only [List.filter_filter]
    apply List.filter_congr
    intro n _
    simp only [List.contains_cons, Bool.not_or, beq_eq_decide]
    exact Bool.and_comm _ _

theorem foldl_detachDelete_nextId (ps : List String) (g : GraphState) :
    (ps.foldl (fun g p => detachDeleteBySource p g) g).nextId = g.nextId := by
  induction ps generalizing g with
  | nil => rfl
  | cons p rest ih => rw [List.foldl_cons, ih]; rfl

theorem foldl_delTrack_eq_filter (ps : List String) (tr : List (String × String)) :
    ps.foldl delTrack tr = tr.filter (fun kv => !(ps.contains kv.1)) := by
  induction ps generalizing tr with
  | nil => simp
  | cons p rest ih =>
    rw [List.foldl_cons, ih, delTrack]
    simp only [List.filter_filter]
    apply List.filter_congr
    intro kv _
    simp only [List.contains_cons, Bool.not_or, beq_eq_decide]
    exact Bool.and_comm _ _

/-- Characterization of `_remove_deleted_files`: the surviving tracking
records and chunk nodes are exactly those not owned by a deleted path;
the id counter and retriever flag are untouched. -/
theorem removeDeletedFiles_spec (s : SysState) (cur : List String) :
    (removeDeletedFiles s cur).1.tracking =
      s.tracking.filter (fun kv => !((deletedPaths s.tracking cur).contains kv.1)) ∧
    (removeDeletedFiles s cur).1.graph.nodes =
      s.graph.nodes.filter (fun n => !((deletedPaths s.tracking cur).contains n.2.source)) ∧
    (removeDeletedFiles s cur).1.graph.nextId = s.graph.nextId ∧
    (removeDeletedFiles s cur).1.retrieverInit = s.retrieverInit := by
  by_cases hd : deletedPaths s.tracking cur = []
  · rw [removeDeletedFiles]
    simp [hd]
  · have hiE : (deletedPaths s.tracking cur).isEmpty = false := by
      cases h2 : deletedPaths s.tracking cur with
      | nil => exact absurd h2 hd
      | cons a l => rfl
    rw [removeDeletedFiles]
    simp only [hiE, Bool.false_eq_true, if_false]
    exact ⟨foldl_delTrack_eq_filter _ _, foldl_detachDelete_nodes _ _,
      foldl_detachDelete_nextId _ _, trivial⟩

/-! ## Missing and empty directories -/

/-- Claim C10: if the knowledge directory does not exist,
`build_knowledge_graph` returns normally and changes nothing — no chunk
deletion or creation, tracking and its persisted blob untouched, the
retriever not (re)initialized; whereas with an existing but empty
directory the same call classifies every tracked file as deleted,
removes its chunks, and empties the tracking map. -/
theorem build_missing_directory_noop (env : Env) (force : Bool) (s : SysState) :
    build env none force s = (s, true) ∧
    (build env (some []) force s).2 = true ∧
    (build env (some []) force s).1.tracking = [] ∧
    (build env (some []) force s).1.retrieverInit = s.retrieverInit ∧
    (build env (some []) force s).1.graph.nodes =
      s.graph.nodes.filter (fun n => !((s.tracking.map Prod.fst).contains n.2.source)) := by
  have hds : deletedPaths s.tracking [] = s.tracking.map Prod.fst := by
    simp [deletedPaths]
  have hempty : build env (some []) force s = (buildS1 s [], true) := by
    rw [build]
    rfl
  have hspec := removeDeletedFiles_spec s []
  rw [hds] at hspec
  refine ⟨rfl, by rw [hempty], ?_, ?_, ?_⟩ <;> rw [hempty, buildS1]
  · rw [List.map_nil, hspec.1, List.filter_eq_nil_iff]
    intro kv hkv
    simp [List.mem_map_of_mem Prod.fst hkv]
  · exact hspec.2.2.2
  · exact hspec.2.1

/-! ## Tracking-map lemmas -/

theorem lookupTrack_setTrack_self (tr : List (String × String)) (p c : String) :
    lookupTrack (setTrack tr p c) p = some c := by
  induction tr with
  | nil => simp [setTrack, lookupTrack]
  | cons kv rest ih =>
    rw [setTrack]
    by_cases h : kv.1 = p
    · rw [if_pos (by simp [h]), lookupTrack, if_pos (by simp)]
    · rw [if_neg (by simp [h]), lookupTrack, if_neg (by simp [h])]
      exact ih

theorem lookupTrack_setTrack_other (tr : List (String × String)) (p c q : String)
    (hne : q ≠ p) :
    lookupTrack (setTrack tr p c) q = lookupTrack tr q := by
  induction tr with
  | nil =>
    have hpq : ¬ p = q := fun h2 => hne h2.symm
    simp [setTrack, lookupTrack, hpq]
  | cons kv rest ih =>
    have hpq : ¬ p = q := fun h2 => hne h2.symm
    rw [setTrack]
    by_cases h : kv.1 = p
    · rw [if_pos (by simp [h])]
      rw [lookupTrack]
      conv_rhs => rw [lookupTrack]
      rw [if_neg (by simp [hpq]), if_neg (by rw [h]; simp [hpq])]
    · rw [if_neg (by simp [h])]
      rw [lookupTrack]
      conv_rhs => rw [lookupTrack]
      by_cases h2 : kv.1 = q
      · rw [if_pos (by simp [h2]), if_pos (by simp [h2])]
      · rw [if_neg (by simp [h2]), if_neg (by simp [h2])]
        exact ih

theorem setTrack_keys (tr : List (String × String)) (p c : String) :
    ∀ q ∈ (setTrack tr p c).map Prod.fst, q ∈ tr.map Prod.fst ∨ q = p := by
  induction tr with
  | nil => intro q hq; simp [setTrack] at hq; simp [hq]
  | cons kv0 rest ih =>
    intro q hq
    rw [setTrack] at hq
    by_cases h : kv0.1 = p
    · rw [if_pos (by simp [h])] at hq
      simp only [List.map_cons, List.mem_cons] at hq
      rcases hq with rfl | hq2
      · exact Or.inr rfl
      · exact Or.inl (by simp only [List.map_cons, List.mem_cons]; exact Or.inr hq2)
    · rw [if_neg (by simp [h])] at hq
      simp only [List.map_cons, List.mem_cons] at hq
      rcases hq with rfl | hq2
      · exact Or.inl (by simp)
      · rcases ih q hq2 with h2 | h2
        · exact Or.inl (by simp only [List.map_cons, List.mem_cons]; exact Or.inr h2)
        · exact Or.inr h2

theorem lookupTrack_filter_keep (tr : List (String × String))
    (f : String × String → Bool) (p : String)
    (h : ∀ kv : String × String, kv.1 = p → f kv = true) :
    lookupTrack (tr.filter f) p = lookupTrack tr p := by
  induction tr with
  | nil => rfl
  | cons kv rest ih =>
    rw [List.filter_cons]
    by_cases hk : kv.1 = p
    · rw [if_pos (h kv hk)]
      simp [lookupTrack, hk, ih]
    · cases hf : f kv with
      | true => simp [lookupTrack, hk, ih]
      | false => simp [lookupTrack, hk, ih]

theorem lookupTrack_filter_none (tr : List (String × String))
    (f : String × String → Bool) (p : String)
    (h : ∀ kv : String × String, kv.1 = p → f kv = false) :
    lookupTrack (tr.filter f) p = none := by
  induction tr with
  | nil => rfl
  | cons kv rest ih =>
    rw [List.filter_cons]
    by_cases hk : kv.1 = p
    · rw [if_neg (by rw [h kv hk]; simp)]
      exact ih
    · cases hf : f kv with
      | true => simp [lookupTrack, hk, ih]
      | false => simp [lookupTrack, hk, ih]

/-! ## Marking-phase lemmas -/

theorem markFilesProcessed_spec (env : Env) :
    ∀ (tp : List SrcFile) (tr tr2 : List (String × String)),
    markFilesProcessed env tp tr = (tr2, true) →
    (∀ f ∈ tp, f.readOk = true) ∧
    (∀ p, (∀ f ∈ tp, f.path ≠ p) → lookupTrack tr2 p = lookupTrack tr p) ∧
    (∀ kv ∈ tr2, kv.1 ∈ tr.map Prod.fst ∨ ∃ f ∈ tp, f.path = kv.1) := by
  intro tp
  induction tp with
  | nil =>
    intro tr tr2 h
    rw [markFilesProcessed] at h
    injection h with h1 h2
    subst h1
    exact ⟨by simp, fun p _ => rfl, fun kv hkv => Or.inl (List.mem_map_of_mem Prod.fst hkv)⟩
  | cons f rest ih =>
    intro tr tr2 h
    rw [markFilesProcessed] at h
    cases hro : f.readOk with
    | false =>
      rw [getFileMetadata] at h
      rw [hro] at h
      simp at h
    | true =>
      rw [getFileMetadata] at h
      rw [hro] at h
      rw [if_pos rfl] at h
      obtain ⟨h1, h2, h3⟩ := ih (setTrack tr f.path (env.hashFn f.content)) tr2 h
      refine ⟨?_, ?_, ?_⟩
      · intro g hg
        rcases List.mem_cons.mp hg with rfl | hg2
        · exact hro
        · exact h1 g hg2
      · intro p hp
        rw [h2 p (fun g hg => hp g (List.mem_cons.mpr (Or.inr hg)))]
        exact lookupTrack_setTrack_other tr f.path (env.hashFn f.content) p
          (fun he => hp f (List.mem_cons.mpr (Or.inl rfl)) he.symm)
      · intro kv hkv
        rcases h3 kv hkv with hk | ⟨g, hg, hgp⟩
        · rcases setTrack_keys tr f.path (env.hashFn f.content) kv.1 hk with hm | hm
          · exact Or.inl hm
          · exact Or.inr ⟨f, List.mem_cons.mpr (Or.inl rfl), hm.symm⟩
        · exact Or.inr ⟨g, List.mem_cons.mpr (Or.inr hg), hgp⟩

theorem markFilesProcessed_lookup_self (env : Env) :
    ∀ (tp : List SrcFile) (tr tr2 : List (String × String)),
    markFilesProcessed env tp tr = (tr2, true) →
    (tp.map (fun f => f.path)).Nodup →
    ∀ f ∈ tp, lookupTrack tr2 f.path = some (env.hashFn f.content) := by
  intro tp
  induction tp with
  | nil => intro tr tr2 _ _ f hf; exact absurd hf (List.not_mem_nil f)
  | cons f rest ih =>
    intro tr tr2 h hnd g hg
    rw [markFilesProcessed] at h
    cases hro : f.readOk with
    | false =>
      rw [getFileMetadata] at h
      rw [hro] at h
      simp at h
    | true =>
      rw [getFileMetadata] at h
      rw [hro] at h
      rw [if_pos rfl] at h
      rcases List.mem_cons.mp hg with rfl | hg2
      · have hothers : ∀ g2 ∈ rest, g2.path ≠ g.path := by
          intro g2 hg2 heq
          have := (List.nodup_cons.mp hnd).1
          exact this (List.mem_map.mpr ⟨g2, hg2, heq⟩)
        rw [(markFilesProcessed_spec env rest _ tr2 h).2.1 g.path hothers]
        exact lookupTrack_setTrack_self tr g.path (env.hashFn g.content)
      · exact ih _ tr2 h (List.nodup_cons.mp hnd).2 g hg2

/-! ## Classification lemmas -/

theorem fileNeedsProcessing_unchanged (env : Env) (tr : List (String × String))
    (f : SrcFile) (hro : f.readOk = true)
    (hlk : lookupTrack tr f.path = some (env.hashFn f.content)) :
    fileNeedsProcessing env tr f = some false := by
  rw [fileNeedsProcessing, hlk]
  simp [getFileMetadata, hro]

theorem fileNeedsProcessing_false (env : Env) (tr : List (String × String))
    (f : SrcFile) (hn : fileNeedsProcessing env tr f = some false) :
    f.readOk = true ∧ lookupTrack tr f.path = some (env.hashFn f.content) := by
  rw [fileNeedsProcessing] at hn
  cases hl : lookupTrack tr f.path with
  | none => rw [hl] at hn; simp at hn
  | some stored =>
    rw [hl] at hn
    cases hro : f.readOk with
    | false =>
      rw [getFileMetadata] at hn
      rw [hro] at hn
      simp at hn
    | true =>
      rw [getFileMetadata] at hn
      rw [hro] at hn
      rw [if_pos rfl] at hn
      refine ⟨rfl, ?_⟩
      injection hn with hn2
      simp at hn2
      rw [hn2]

theorem categorizeFiles_unchanged (env : Env) (tr : List (String × String))
    (files : List SrcFile)
    (h : ∀ f ∈ files, f.readOk = true ∧
      lookupTrack tr f.path = some (env.hashFn f.content)) :
    categorizeFiles env tr false files = some ([], files) := by
  induction files with
  | nil => rfl
  | cons f rest ih =>
    obtain ⟨hro, hlk⟩ := h f (List.mem_cons.mpr (Or.inl rfl))
    have ihh := ih (fun g hg => h g (List.mem_cons.mpr (Or.inr hg)))
    rw [categorizeFiles]
    simp [fileNeedsProcessing_unchanged env tr f hro hlk, ihh]

theorem categorizeFiles_un_sound (env : Env) (tr : List (String × String)) :
    ∀ (files : List SrcFile) (tp un : List SrcFile),
    categorizeFiles env tr false files = some (tp, un) →
    ∀ f ∈ un, f.readOk = true ∧
      lookupTrack tr f.path = some (env.hashFn f.content) := by
  intro files
  induction files with
  | nil =>
    intro tp un h f hf
    rw [categorizeFiles] at h
    simp at h
    obtain ⟨h1, h2⟩ := h
    subst h1; subst h2
    exact absurd hf (List.not_mem_nil f)
  | cons g rest ih =>
    intro tp un h f hf
    rw [categorizeFiles] at h
    rw [if_neg (by simp)] at h
    cases hn : fileNeedsProcessing env tr g with
    | none => rw [hn] at h; simp at h
    | some b =>
      rw [hn] at h
      cases hr : categorizeFiles env tr false rest with
      | none => rw [hr] at h; simp at h
      | some pr =>
        obtain ⟨tp2, un2⟩ := pr
        rw [hr] at h
        cases b with
        | true =>
          simp at h
          obtain ⟨h1, h2⟩ := h
          subst h1; subst h2
          exact ih tp2 un2 hr f hf
        | false =>
          simp at h
          obtain ⟨h1, h2⟩ := h
          subst h1; subst h2
          rcases List.mem_cons.mp hf with rfl | hf2
          · exact fileNeedsProcessing_false env tr f hn
          · exact ih tp2 un2 hr f hf2

theorem categorizeFiles_cover (env : Env) (tr : List (String × String)) (force : Bool) :
    ∀ (files : List SrcFile) (tp un : List SrcFile),
    categorizeFiles env tr force files = some (tp, un) →
    ∀ f ∈ files, f ∈ tp ∨ f ∈ un := by
  intro files
  induction files with
  | nil => intro tp un _ f hf; exact absurd hf (List.not_mem_nil f)
  | cons g rest ih =>
    intro tp un h f hf
    rw [categorizeFiles] at h
    cases hn : (if force then some true else fileNeedsProcessing env tr g) with
    | none => rw [hn] at h; simp at h
    | some b =>
      rw [hn] at h
      cases hr : categorizeFiles env tr force rest with
      | none => rw [hr] at h; simp at h
      | some pr =>
        obtain ⟨tp2, un2⟩ := pr
        rw [hr] at h
        cases b with
        | true =>
          simp at h
          obtain ⟨h1, h2⟩ := h
          subst h1; subst h2
          rcases List.mem_cons.mp hf with rfl | hf2
          · exact Or.inl (List.mem_cons.mpr (Or.inl rfl))
          · rcases ih tp2 un2 hr f hf2 with h2 | h2
            · exact Or.inl (List.mem_cons.mpr (Or.inr h2))
            · exact Or.inr h2
        | false =>
          simp at h
          obtain ⟨h1, h2⟩ := h
          subst h1; subst h2
          rcases List.mem_cons.mp hf with rfl | hf2
          · exact Or.inr (List.mem_cons.mpr (Or.inl rfl))
          · rcases ih tp2 un2 hr f hf2 with h2 | h2
            · exact Or.inl h2
            · exact Or.inr (List.mem_cons.mpr (Or.inr h2))

theorem categorizeFiles_tp_sub (env : Env) (tr : List (String × String)) (force : Bool) :
    ∀ (files : List SrcFile) (tp un : List SrcFile),
    categorizeFiles env tr force files = some (tp, un) →
    ∀ f ∈ tp, f ∈ files := by
  intro files
  induction files with
  | nil =>
    intro tp un h f hf
    rw [categorizeFiles] at h
    simp at h
    obtain ⟨h1, h2⟩ := h
    subst h1; subst h2
    exact absurd hf (List.not_mem_nil f)
  | cons g rest ih =>
    intro tp un h f hf
    rw [categorizeFiles] at h
    cases hn : (if force then some true else fileNeedsProcessing env tr g) with
    | none => rw [hn] at h; simp at h
    | some b =>
      rw [hn] at h
      cases hr : categorizeFiles env tr force rest with
      | none => rw [hr] at h; simp at h
      | some pr =>
        obtain ⟨tp2, un2⟩ := pr
        rw [hr] at h
        cases b with
        | true =>
          simp at h
          obtain ⟨h1, h2⟩ := h
          subst h1; subst h2
          rcases List.mem_cons.mp hf with rfl | hf2
          · exact List.mem_cons.mpr (Or.inl rfl)
          · exact List.mem_cons.mpr (Or.inr (ih tp2 un2 hr f hf2))
        | false =>
          simp at h
          obtain ⟨h1, h2⟩ := h
          subst h1; subst h2
          exact List.mem_cons.mpr (Or.inr (ih tp2 un2 hr f hf))

/-! ## Deletion-phase lemmas -/

theorem lookupTrack_ne_none_mem (tr : List (String × String)) (p : String)
    (h : lookupTrack tr p ≠ none) : p ∈ tr.map Prod.fst := by
  induction tr with
  | nil => exact absurd rfl h
  | cons kv rest ih =>
    rw [lookupTrack] at h
    by_cases hk : kv.1 = p
    · exact List.mem_map.mpr ⟨kv, List.mem_cons.mpr (Or.inl rfl), hk⟩
    · rw [if_neg (by simp [hk])] at h
      simp only [List.map_cons, List.mem_cons]
      exact Or.inr (ih h)

theorem filter_keep_of_imp {α : Type} (l : List α) (p q : α → Bool)
    (h : ∀ a, p a = true → q a = true) :
    (l.filter q).filter p = l.filter p := by
  induction l with
  | nil => rfl
  | cons a rest ih =>
    rw [List.filter_cons]
    cases hq : q a with
    | true =>
      rw [if_pos rfl]
      rw [List.filter_cons, List.filter_cons]
      cases hp : p a with
      | true => rw [if_pos rfl, if_pos rfl, ih]
      | false => rw [if_neg (by simp), if_neg (by simp), ih]
    | false =>
      have hp : p a = false := by
        cases hp2 : p a with
        | true => rw [h a hp2] at hq; exact absurd hq (by simp)
        | false => rfl
      rw [if_neg (by simp)]
      rw [ih, List.filter_cons, if_neg (by rw [hp]; simp)]

theorem removeDeletedFiles_keys_current (s : SysState) (cur : List String) :
    ∀ kv ∈ (removeDeletedFiles s cur).1.tracking, cur.contains kv.1 = true := by
  intro kv hkv
  rw [(removeDeletedFiles_spec s cur).1] at hkv
  obtain ⟨hmem, hpred⟩ := List.mem_filter.mp hkv
  cases hcc : cur.contains kv.1 with
  | true => rfl
  | false =>
    have hin : kv.1 ∈ deletedPaths s.tracking cur := by
      rw [deletedPaths]
      exact List.mem_filter.mpr
        ⟨List.mem_map_of_mem Prod.fst hmem, by rw [hcc]; rfl⟩
    simp [hin] at hpred

theorem removeDeletedFiles_noop (s : SysState) (cur : List String)
    (h : ∀ kv ∈ s.tracking, cur.contains kv.1 = true) :
    removeDeletedFiles s cur = (s, []) := by
  have hd : deletedPaths s.tracking cur = [] := by
    rw [deletedPaths, List.filter_eq_nil_iff]
    intro q hq
    obtain ⟨kv, hkv, rfl⟩ := List.mem_map.mp hq
    rw [h kv hkv]
    simp
  rw [removeDeletedFiles]
  simp [hd]

theorem lookupTrack_removeDeletedFiles_present (s : SysState) (cur : List String)
    (p : String) (hp : cur.contains p = true) :
    lookupTrack (removeDeletedFiles s cur).1.tracking p = lookupTrack s.tracking p := by
  rw [(removeDeletedFiles_spec s cur).1]
  apply lookupTrack_filter_keep
  intro kv hkv
  have hnin : kv.1 ∉ deletedPaths s.tracking cur := by
    rw [deletedPaths]
    intro hmem
    obtain ⟨h1, h2⟩ := List.mem_filter.mp hmem
    rw [hkv] at h2
    rw [hp] at h2
    simp at h2
  simp [hnin]

/-! ## Deletion propagation -/

/-- Claim C6: when every file still on disk is unchanged (tracked with
a matching checksum), a build removes, for every tracked path no longer
present, all Chunk nodes with that source and its tracking record,
while every present path keeps its chunk nodes and its tracking record
untouched.  Instantiated by the witness at the indexed `{A, B}` state
with `B` deleted from disk. -/
theorem build_deletion_propagation (env : Env) (files : List SrcFile) (s : SysState)
    (hun : ∀ f ∈ files, f.readOk = true ∧
      lookupTrack s.tracking f.path = some (env.hashFn f.content)) :
    (build env (some files) false s).2 = true ∧
    (∀ p, lookupTrack s.tracking p ≠ none →
      (files.map (fun f => f.path)).contains p = false →
      ((build env (some files) false s).1.graph.nodes.filter
          (fun n => n.2.source == p) = [] ∧
        lookupTrack (build env (some files) false s).1.tracking p = none)) ∧
    (∀ f ∈ files,
      (build env (some files) false s).1.graph.nodes.filter
          (fun n => n.2.source == f.path) =
        s.graph.nodes.filter (fun n => n.2.source == f.path) ∧
      lookupTrack (build env (some files) false s).1.tracking f.path =
        lookupTrack s.tracking f.path) := by
  have hs1 : (buildS1 s files).tracking =
        s.tracking.filter (fun kv =>
          !((deletedPaths s.tracking (files.map (fun f => f.path))).contains kv.1)) ∧
      (buildS1 s files).graph.nodes =
        s.graph.nodes.filter (fun n =>
          !((deletedPaths s.tracking (files.map (fun f => f.path))).contains n.2.source)) ∧
      (buildS1 s files).graph.nextId = s.graph.nextId ∧
      (buildS1 s files).retrieverInit = s.retrieverInit := by
    unfold buildS1
    exact removeDeletedFiles_spec s (files.map (fun f => f.path))
  have hs1un : ∀ f ∈ files, lookupTrack (buildS1 s files).tracking f.path =
      lookupTrack s.tracking f.path := by
    intro f hf
    exact lookupTrack_removeDeletedFiles_present s _ f.path
      (by simpa using List.mem_map_of_mem (fun f => f.path) hf)
  have hcat : categorizeFiles env (buildS1 s files).tracking false files =
      some ([], files) :=
    categorizeFiles_unchanged env _ files
      (fun f hf => ⟨(hun f hf).1, by rw [hs1un f hf]; exact (hun f hf).2⟩)
  have hbuild : build env (some files) false s =
      (if files.isEmpty then buildS1 s files
       else { buildS1 s files with retrieverInit := true }, true) := by
    cases hfe : files with
    | nil => rw [build]; simp
    | cons f0 frest =>
      rw [build]
      rw [hfe] at hcat
      simp [hcat]
  have htrk : (build env (some files) false s).1.tracking = (buildS1 s files).tracking := by
    rw [hbuild]
    by_cases hie : files.isEmpty = true <;> simp [hie]
  have hgr : (build env (some files) false s).1.graph = (buildS1 s files).graph := by
    rw [hbuild]
    by_cases hie : files.isEmpty = true <;> simp [hie]
  refine ⟨by rw [hbuild], ?_, ?_⟩
  · intro p hp hnc
    have hpin : p ∈ deletedPaths s.tracking (files.map (fun f => f.path)) := by
      rw [deletedPaths]
      refine List.mem_filter.mpr ⟨lookupTrack_ne_none_mem s.tracking p hp, ?_⟩
      rw [hnc]
      rfl
    constructor
    · rw [hgr, hs1.2.1, List.filter_eq_nil_iff]
      intro n hn
      obtain ⟨-, hpred⟩ := List.mem_filter.mp hn
      intro hsrc
      have hsp : n.2.source = p := by simpa using hsrc
      rw [hsp] at hpred
      have hcp : (deletedPaths s.tracking (files.map (fun f => f.path))).contains p =
          true := by simpa using hpin
      rw [hcp] at hpred
      simp at hpred
    · rw [htrk, hs1.1]
      apply lookupTrack_filter_none
      intro kv hkv
      rw [hkv]
      have hcp : (deletedPaths s.tracking (files.map (fun f => f.path))).contains p =
          true := by simpa using hpin
      rw [hcp]
      rfl
  · intro f hf
    constructor
    · rw [hgr, hs1.2.1]
      apply filter_keep_of_imp
      intro n hsrc
      have hsp : n.2.source = f.path := by simpa using hsrc
      rw [hsp]
      have hnin : f.path ∉ deletedPaths s.tracking (files.map (fun g => g.path)) := by
        rw [deletedPaths]
        intro hmem
        obtain ⟨-, h2⟩ := List.mem_filter.mp hmem
        have : f.path ∈ files.map (fun g => g.path) := List.mem_map_of_mem _ hf
        rw [(by simpa using this : (files.map (fun g => g.path)).contains f.path = true)]
          at h2
        simp at h2
      simp [hnin]
    · rw [htrk]
      exact hs1un f hf

/-- Witness for C6: with `fileA` and `fileB` indexed (`sAB`) and `fileB`
deleted from disk, rebuilding leaves no chunk sourced from `kb/b.md`,
drops `kb/b.md` from tracking, and leaves `kb/a.md` chunks and its
tracking record untouched. -/
theorem build_deletion_propagation_witness :
    ((build exEnv (some [fileA]) false sAB).1.graph.nodes.filter
        (fun n => n.2.source == "kb/b.md") = [] ∧
      lookupTrack (build exEnv (some [fileA]) false sAB).1.tracking "kb/b.md" = none) ∧
    ((build exEnv (some [fileA]) false sAB).1.graph.nodes.filter
        (fun n => n.2.source == "kb/a.md") =
       sAB.graph.nodes.filter (fun n => n.2.source == "kb/a.md") ∧
      lookupTrack (build exEnv (some [fileA]) false sAB).1.tracking "kb/a.md" =
        lookupTrack sAB.tracking "kb/a.md") := by
  have h := build_deletion_propagation exEnv [fileA] sAB (by decide)
  exact ⟨h.2.1 "kb/b.md" (by decide) (by decide), h.2.2 fileA (by decide)⟩

/-! ## Build unfolding and incremental-rebuild lemmas -/

/-- One-step unfolding of `build_knowledge_graph` on a non-empty
directory listing, exposing the classification, early returns, graph
phase and marking phase. -/
theorem build_ne_nil (env : Env) (files : List SrcFile) (force : Bool) (s : SysState)
    (hfe : files ≠ []) :
    build env (some files) force s =
      (match categorizeFiles env (buildS1 s files).tracking force files with
       | none => (buildS1 s files, false)
       | some (tp, _un) =>
         if tp.isEmpty then ({ buildS1 s files with retrieverInit := true }, true)
         else
           let docs := tp.filterMap loadDocument
           if docs.isEmpty then (buildS1 s files, true)
           else
             let splits := splitDocuments env docs
             let g1 := tp.foldl (fun g f => detachDeleteBySource f.path g)
               (buildS1 s files).graph
             let g2 := (createChunkNodes env splits g1).1
             let g3 := tp.foldl (fun g f => mergeNextChunkEdges f.path g) g2
             match markFilesProcessed env tp (buildS1 s files).tracking with
             | (tr, true) =>
                 ({ graph := g3, tracking := tr, persisted := tr,
                    retrieverInit := true }, true)
             | (tr, false) =>
                 ({ buildS1 s files with graph := g3, tracking := tr }, false)) := by
  cases files with
  | nil => exact absurd rfl hfe
  | cons f0 frest => rfl

theorem categorizeFiles_sublist (env : Env) (tr : List (String × String)) (force : Bool) :
    ∀ (files : List SrcFile) (tp un : List SrcFile),
    categorizeFiles env tr force files = some (tp, un) →
    tp.Sublist files := by
  intro files
  induction files with
  | nil =>
    intro tp un h
    rw [categorizeFiles] at h
    simp at h
    obtain ⟨h1, h2⟩ := h
    subst h1
    exact List.Sublist.refl []
  | cons g rest ih =>
    intro tp un h
    rw [categorizeFiles] at h
    cases hn : (if force then some true else fileNeedsProcessing env tr g) with
    | none => rw [hn] at h; simp at h
    | some b =>
      rw [hn] at h
      cases hr : categorizeFiles env tr force rest with
      | none => rw [hr] at h; simp at h
      | some pr =>
        obtain ⟨tp2, un2⟩ := pr
        rw [hr] at h
        cases b with
        | true =>
          simp at h
          obtain ⟨h1, h2⟩ := h
          subst h1; subst h2
          exact List.Sublist.cons₂ g (ih tp2 un2 hr)
        | false =>
          simp at h
          obtain ⟨h1, h2⟩ := h
          subst h1; subst h2
          exact List.Sublist.cons g (ih tp2 un2 hr)

theorem SysState_set_retriever_eq (s : SysState) (h : s.retrieverInit = true) :
    { s with retrieverInit := true } = s := by
  cases s with
  | mk g t pers r =>
    have hr : r = true := h
    rw [hr]

/-- Every key in the tracking map after the deleted-files phase is the
path of a file still on disk. -/
theorem buildS1_keys_current (s : SysState) (files : List SrcFile) :
    ∀ kv ∈ (buildS1 s files).tracking,
      (files.map (fun f => f.path)).contains kv.1 = true := by
  unfold buildS1
  exact removeDeletedFiles_keys_current s (files.map (fun f => f.path))

/-- In a full-processing build (non-empty `toProcess` with at least one
loadable document), the final tracking map and completion flag come
from the marking phase, and a successful marking phase also initializes
the retriever and persists the tracking map. -/
theorem build_full_tracking (env : Env) (files : List SrcFile) (s0 : SysState)
    (tp un : List SrcFile)
    (hcat : categorizeFiles env (buildS1 s0 files).tracking false files = some (tp, un))
    (htp : tp ≠ []) (hdocs : tp.filterMap loadDocument ≠ []) (hfe : files ≠ []) :
    ∃ tr ok, markFilesProcessed env tp (buildS1 s0 files).tracking = (tr, ok) ∧
      (build env (some files) false s0).1.tracking = tr ∧
      (build env (some files) false s0).2 = ok ∧
      (ok = true → (build env (some files) false s0).1.retrieverInit = true ∧
        (build env (some files) false s0).1.persisted = tr) := by
  have htpe : tp.isEmpty = false := by
    cases tp with
    | nil => exact absurd rfl htp
    | cons a l => rfl
  have hde : (tp.filterMap loadDocument).isEmpty = false := by
    cases hdd : tp.filterMap loadDocument with
    | nil => exact absurd hdd hdocs
    | cons a l => rfl
  rw [build_ne_nil env files false s0 hfe, hcat]
  simp only [htpe, hde, Bool.false_eq_true, if_false]
  cases hm : markFilesProcessed env tp (buildS1 s0 files).tracking with
  | mk tr ok =>
    cases ok with
    | true =>
      exact ⟨tr, true, by trivial, by trivial, by trivial,
        fun _ => ⟨by trivial, by trivial⟩⟩
    | false =>
      exact ⟨tr, false, by trivial, by trivial, by trivial, fun h2 => by simp at h2⟩

/-- After a completed build whose processing set either was empty or
produced at least one document, every file on disk is readable and
tracked with its current checksum, every tracking key is a current
path, and the retriever is initialized. -/
theorem build_run1_stable (env : Env) (files : List SrcFile) (s0 : SysState)
    (tp un : List SrcFile)
    (hnd : (files.map (fun f => f.path)).Nodup)
    (hcat : categorizeFiles env (buildS1 s0 files).tracking false files = some (tp, un))
    (hc : (build env (some files) false s0).2 = true)
    (hd : tp = [] ∨ tp.filterMap loadDocument ≠ []) (hfe : files ≠ []) :
    (∀ f ∈ files, f.readOk = true ∧
      lookupTrack (build env (some files) false s0).1.tracking f.path =
        some (env.hashFn f.content)) ∧
    (∀ kv ∈ (build env (some files) false s0).1.tracking,
      (files.map (fun f => f.path)).contains kv.1 = true) ∧
    (build env (some files) false s0).1.retrieverInit = true := by
  by_cases htp : tp = []
  · subst htp
    have hb1 : build env (some files) false s0 =
        ({ buildS1 s0 files with retrieverInit := true }, true) := by
      rw [build_ne_nil env files false s0 hfe, hcat]
      rfl
    rw [hb1]
    have hallun : ∀ f ∈ files, f.readOk = true ∧
        lookupTrack (buildS1 s0 files).tracking f.path =
          some (env.hashFn f.content) := by
      intro f hf
      rcases categorizeFiles_cover env _ false files [] un hcat f hf with h | h
      · exact absurd h (List.not_mem_nil f)
      · exact categorizeFiles_un_sound env _ files [] un hcat f h
    refine ⟨hallun, ?_, rfl⟩
    intro kv hkv
    exact buildS1_keys_current s0 files kv hkv
  · have hdocs : tp.filterMap loadDocument ≠ [] := by
      rcases hd with h | h
      · exact absurd h htp
      · exact h
    obtain ⟨tr, ok, hm, htr, hok, hinit⟩ :=
      build_full_tracking env files s0 tp un hcat htp hdocs hfe
    have hoktrue : ok = true := by rw [← hok]; exact hc
    subst hoktrue
    have hspec := markFilesProcessed_spec env tp (buildS1 s0 files).tracking tr hm
    have hndtp : (tp.map (fun f => f.path)).Nodup :=
      hnd.sublist
        ((categorizeFiles_sublist env _ false files tp un hcat).map (fun f => f.path))
    have hself := markFilesProcessed_lookup_self env tp _ tr hm hndtp
    refine ⟨?_, ?_, (hinit rfl).1⟩
    · intro f hf
      rw [htr]
      rcases categorizeFiles_cover env _ false files tp un hcat f hf with hin | hin
      · exact ⟨hspec.1 f hin, hself f hin⟩
      · obtain ⟨hro, hlk⟩ := categorizeFiles_un_sound env _ files tp un hcat f hin
        by_cases hsh : ∀ g ∈ tp, g.path ≠ f.path
        · exact ⟨hro, by rw [hspec.2.1 f.path hsh]; exact hlk⟩
        · push_neg at hsh
          obtain ⟨g, hgtp, hgp⟩ := hsh
          have hfg : g = f :=
            List.inj_on_of_nodup_map hnd
              (categorizeFiles_tp_sub env _ false files tp un hcat g hgtp) hf hgp
          exact ⟨hro, hfg ▸ hself g hgtp⟩
    · intro kv hkv
      rw [htr] at hkv
      rcases hspec.2.2 kv hkv with hk | ⟨g, hgtp, hgp⟩
      · obtain ⟨kv2, hkv2, hkk⟩ := List.mem_map.mp hk
        have h2 := buildS1_keys_current s0 files kv2 hkv2
        rw [← hkk]
        exact h2
      · have hmem : g.path ∈ files.map (fun f => f.path) :=
          List.mem_map_of_mem _ (categorizeFiles_tp_sub env _ false files tp un hcat g hgtp)
        rw [← hgp]
        simpa using hmem

/-! ## Idempotent rebuild -/

/-- Counterexample to claim C2: a knowledge directory holding a single
readable PDF with no extractable text.  The first build completes
normally but bails out before the marking phase ("no valid documents"),
so nothing is recorded; on a second run with no filesystem change the
file is classified as needing processing again — the second run's
processing set is not empty, contrary to the claim. -/
theorem build_rebuild_not_idempotent_blankPdf :
    (build exEnv (some [fileBlankPdf]) false SysState.empty).2 = true ∧
    categorizeFiles exEnv
        (buildS1 (build exEnv (some [fileBlankPdf]) false SysState.empty).1
          [fileBlankPdf]).tracking
        false [fileBlankPdf] = some ([fileBlankPdf], []) := by
  constructor
  · decide
  · decide

/-- Claim C2 as amended: running the build twice with no filesystem
changes yields identical system state after both runs (hence the same
chunk count and identical tracking checksums), and the second run
classifies every file as unchanged — provided the first run completed
and either processed nothing or loaded at least one document (a batch
in which no file yields a loadable document is not marked processed and
is re-classified as needing processing on every run). -/
theorem build_rebuild_idempotent (env : Env) (files : List SrcFile) (s0 : SysState)
    (hnd : (files.map (fun f => f.path)).Nodup)
    (hc : (build env (some files) false s0).2 = true)
    (hd : ∀ tp un,
      categorizeFiles env (buildS1 s0 files).tracking false files = some (tp, un) →
      tp = [] ∨ tp.filterMap loadDocument ≠ []) :
    build env (some files) false (build env (some files) false s0).1 =
      ((build env (some files) false s0).1, true) ∧
    categorizeFiles env (build env (some files) false s0).1.tracking false files =
      some ([], files) := by
  by_cases hfe : files = []
  · subst hfe
    have hb1 : build env (some ([] : List SrcFile)) false s0 = (buildS1 s0 [], true) := rfl
    rw [hb1]
    have htr0 : (buildS1 s0 []).tracking = [] := by
      apply List.eq_nil_iff_forall_not_mem.mpr
      intro kv hkv
      have h2 := buildS1_keys_current s0 [] kv hkv
      simp at h2
    have hnoop : removeDeletedFiles (buildS1 s0 []) [] = (buildS1 s0 [], []) :=
      removeDeletedFiles_noop _ [] (by
        rw [htr0]
        intro kv hkv
        exact absurd hkv (List.not_mem_nil kv))
    constructor
    · have hbs1 : buildS1 (buildS1 s0 []) [] = buildS1 s0 [] := by
        have h2 : (removeDeletedFiles (buildS1 s0 []) []).1 = buildS1 s0 [] := by
          rw [hnoop]
        exact h2
      rw [build, hbs1]
      rfl
    · rw [htr0]
      rfl
  · cases hcat : categorizeFiles env (buildS1 s0 files).tracking false files with
    | none =>
      rw [build_ne_nil env files false s0 hfe, hcat] at hc
      simp at hc
    | some pr =>
      obtain ⟨tp, un⟩ := pr
      obtain ⟨hall, hkeys, hret⟩ :=
        build_run1_stable env files s0 tp un hnd hcat hc (hd tp un hcat) hfe
      have hnoop : removeDeletedFiles (build env (some files) false s0).1
          (files.map (fun f => f.path)) = ((build env (some files) false s0).1, []) :=
        removeDeletedFiles_noop _ _ hkeys
      have hbs1 : buildS1 (build env (some files) false s0).1 files =
          (build env (some files) false s0).1 := by
        have h2 : (removeDeletedFiles (build env (some files) false s0).1
            (files.map (fun f => f.path))).1 = (build env (some files) false s0).1 := by
          rw [hnoop]
        exact h2
      have hcat2 : categorizeFiles env (build env (some files) false s0).1.tracking
          false files = some ([], files) :=
        categorizeFiles_unchanged env _ files hall
      refine ⟨?_, hcat2⟩
      rw [build_ne_nil env files false _ hfe, hbs1, hcat2]
      simp [SysState_set_retriever_eq _ hret]

/-- Witness for the amended C2 at a one-file directory built from the
empty state: the second build returns the first build's state unchanged
and classifies the file as unchanged. -/
theorem build_rebuild_idempotent_witness :
    build exEnv (some [fileA]) false (build exEnv (some [fileA]) false SysState.empty).1 =
      ((build exEnv (some [fileA]) false SysState.empty).1, true) ∧
    categorizeFiles exEnv (build exEnv (some [fileA]) false SysState.empty).1.tracking
      false [fileA] = some ([], [fileA]) :=
  build_rebuild_idempotent exEnv [fileA] SysState.empty (by decide) (by decide)
    (by
      intro tp un h
      have hconc : categorizeFiles exEnv (buildS1 SysState.empty [fileA]).tracking
          false [fileA] = some ([fileA], []) := by decide
      rw [hconc] at h
      injection h with h1
      rw [Prod.mk.injEq] at h1
      obtain ⟨h2, h3⟩ := h1
      subst h2
      exact Or.inr (by decide))

/-! ## Marking after per-item failures -/

/-- Counterexample to claim C3: a build of a single readable Markdown
file whose only chunk's embedding call fails.  The build completes
normally, no chunk node was created, yet the file's checksum is
recorded as processed in the tracking map — the code marks every file
in `files_to_process` regardless of per-chunk failures, so the file
will not be retried on the next build and the tracked-implies-fully-
processed invariant is violated. -/
theorem build_marks_file_despite_chunk_failure :
    (build exEnvFail (some [fileBadChunk]) false SysState.empty).2 = true ∧
    (build exEnvFail (some [fileBadChunk]) false SysState.empty).1.graph.nodes = [] ∧
    lookupTrack (build exEnvFail (some [fileBadChunk]) false SysState.empty).1.tracking
        "kb/f.md" = some (exEnvFail.hashFn fileBadChunk.content) := by
  refine ⟨?_, ?_, ?_⟩ <;> decide

/-- Claim C3 as amended: when a build reaches its marking phase
(non-empty processing set, at least one loadable document) and
completes, every file of the processing set is marked processed with
its current checksum — whether or not some of its chunks failed (the
embedding oracle `env.embedFn` is unconstrained here), so a path
present in the tracking map may be missing chunks. -/
theorem build_marks_all_processed_files (env : Env) (files : List SrcFile)
    (s0 : SysState) (tp un : List SrcFile)
    (hnd : (files.map (fun f => f.path)).Nodup)
    (hcat : categorizeFiles env (buildS1 s0 files).tracking false files = some (tp, un))
    (htp : tp ≠ []) (hdocs : tp.filterMap loadDocument ≠ [])
    (hc : (build env (some files) false s0).2 = true) :
    ∀ f ∈ tp, lookupTrack (build env (some files) false s0).1.tracking f.path =
      some (env.hashFn f.content) := by
  have hfe : files ≠ [] := by
    intro h
    subst h
    rw [categorizeFiles] at hcat
    simp at hcat
    obtain ⟨h1, -⟩ := hcat
    exact htp h1
  obtain ⟨tr, ok, hm, htr, hok, -⟩ :=
    build_full_tracking env files s0 tp un hcat htp hdocs hfe
  have hoktrue : ok = true := by rw [← hok]; exact hc
  subst hoktrue
  have hndtp : (tp.map (fun f => f.path)).Nodup :=
    hnd.sublist
      ((categorizeFiles_sublist env _ false files tp un hcat).map (fun f => f.path))
  intro f hf
  rw [htr]
  exact markFilesProcessed_lookup_self env tp _ tr hm hndtp f hf

/-- Witness for the amended C3 at the failing-chunk scenario: the file
whose chunk failed is still marked with its checksum. -/
theorem build_marks_all_processed_files_witness :
    lookupTrack (build exEnvFail (some [fileBadChunk]) false SysState.empty).1.tracking
      fileBadChunk.path = some (exEnvFail.hashFn fileBadChunk.content) :=
  build_marks_all_processed_files exEnvFail [fileBadChunk] SysState.empty
    [fileBadChunk] [] (by decide) (by decide) (by decide) (by decide) (by decide)
    fileBadChunk (by decide)

/-! ## Graph well-formedness through the build -/

theorem mergeNextChunkEdges_nodes (s : String) (g : GraphState) :
    (mergeNextChunkEdges s g).nodes = g.nodes := rfl

theorem foldl_merge_nodes (files : List SrcFile) (g : GraphState) :
    (files.foldl (fun g f => mergeNextChunkEdges f.path g) g).nodes = g.nodes := by
  induction files generalizing g with
  | nil => rfl
  | cons f rest ih =>
    rw [List.foldl_cons, ih]
    rfl

theorem removeDeletedFiles_graph (s : SysState) (cur : List String) :
    (removeDeletedFiles s cur).1.graph =
      (deletedPaths s.tracking cur).foldl (fun g p => detachDeleteBySource p g) s.graph := by
  by_cases hd : deletedPaths s.tracking cur = []
  · rw [removeDeletedFiles]
    simp [hd]
  · have hiE : (deletedPaths s.tracking cur).isEmpty = false := by
      cases h2 : deletedPaths s.tracking cur with
      | nil => exact absurd h2 hd
      | cons a l => rfl
    rw [removeDeletedFiles]
    simp only [hiE, Bool.false_eq_true, if_false]

theorem GWF_detachDeleteBySource (s : String) (g : GraphState) (h : GWF g) :
    GWF (detachDeleteBySource s g) := by
  obtain ⟨hnd, hlt, hedge⟩ := h
  refine ⟨?_, ?_, ?_⟩
  · exact hnd.sublist (List.Sublist.map _ (List.filter_sublist _))
  · intro n hn
    exact hlt n (List.mem_of_mem_filter hn)
  · intro e he
    have he2 : e ∈ g.edges.filter (fun e =>
        !(((g.nodes.filter (fun n => n.2.source == s)).map (fun n => n.1)).contains e.1) &&
        !(((g.nodes.filter (fun n => n.2.source == s)).map (fun n => n.1)).contains e.2)) :=
      he
    obtain ⟨hee, hkeep⟩ := List.mem_filter.mp he2
    obtain ⟨a, ha, b, hb, rfl, hsame⟩ := hedge e hee
    rw [Bool.and_eq_true] at hkeep
    have hasrc : (a.2.source == s) = false := by
      cases hsc : a.2.source == s with
      | false => rfl
      | true =>
        exfalso
        have hmem : a.1 ∈ (g.nodes.filter (fun n => n.2.source == s)).map (fun n => n.1) :=
          List.mem_map_of_mem _ (List.mem_filter.mpr ⟨ha, hsc⟩)
        rw [(by simpa using hmem :
          ((g.nodes.filter (fun n => n.2.source == s)).map (fun n => n.1)).contains a.1 =
            true)] at hkeep
        simp at hkeep
    have hbsrc : (b.2.source == s) = false := by
      cases hsc : b.2.source == s with
      | false => rfl
      | true =>
        exfalso
        have hmem : b.1 ∈ (g.nodes.filter (fun n => n.2.source == s)).map (fun n => n.1) :=
          List.mem_map_of_mem _ (List.mem_filter.mpr ⟨hb, hsc⟩)
        rw [(by simpa using hmem :
          ((g.nodes.filter (fun n => n.2.source == s)).map (fun n => n.1)).contains b.1 =
            true)] at hkeep
        simp at hkeep
    refine ⟨a, ?_, b, ?_, rfl, hsame⟩
    · exact List.mem_filter.mpr ⟨ha, by rw [hasrc]; rfl⟩
    · exact List.mem_filter.mpr ⟨hb, by rw [hbsrc]; rfl⟩

theorem GWF_foldl_detach (ps : List String) (g : GraphState) (h : GWF g) :
    GWF (ps.foldl (fun g p => detachDeleteBySource p g) g) := by
  induction ps generalizing g with
  | nil => exact h
  | cons p rest ih =>
    rw [List.foldl_cons]
    exact ih _ (GWF_detachDeleteBySource p g h)

theorem mkNodes_ids_bound (env : Env) :
    ∀ (xs : List Doc) (base idx : Nat), ∀ x ∈ mkNodes env xs base idx,
      base ≤ x.1 ∧ x.1 < base + xs.length := by
  intro xs
  induction xs with
  | nil => intro base idx x hx; exact absurd hx (List.not_mem_nil x)
  | cons d rest ih =>
    intro base idx x hx
    rw [mkNodes] at hx
    rcases List.mem_cons.mp hx with rfl | hx2
    · exact ⟨Nat.le_refl _, by simp⟩
    · obtain ⟨h1, h2⟩ := ih (base + 1) (idx + 1) x hx2
      exact ⟨by omega, by simpa [Nat.add_comm, Nat.add_assoc, Nat.add_left_comm] using h2⟩

theorem mkNodes_ids_nodup (env : Env) :
    ∀ (xs : List Doc) (base idx : Nat), ((mkNodes env xs base idx).map (fun n => n.1)).Nodup := by
  intro xs
  induction xs with
  | nil => intro base idx; simp [mkNodes]
  | cons d rest ih =>
    intro base idx
    rw [mkNodes, List.map_cons, List.nodup_cons]
    refine ⟨?_, ih (base + 1) (idx + 1)⟩
    intro hmem
    obtain ⟨x, hx, hxx⟩ := List.mem_map.mp hmem
    have := (mkNodes_ids_bound env rest (base + 1) (idx + 1) x hx).1
    omega

theorem GWF_append_mkNodes (env : Env) (splits : List Doc) (idx : Nat) (g : GraphState)
    (h : GWF g) :
    GWF { nextId := g.nextId + splits.length,
          nodes := g.nodes ++ mkNodes env splits g.nextId idx,
          edges := g.edges } := by
  obtain ⟨hnd, hlt, hedge⟩ := h
  refine ⟨?_, ?_, ?_⟩
  · rw [List.map_append, List.nodup_append]
    refine ⟨hnd, mkNodes_ids_nodup env splits g.nextId idx, ?_⟩
    intro i hi hi2
    obtain ⟨a, ha, rfl⟩ := List.mem_map.mp hi
    obtain ⟨b, hb, hbb⟩ := List.mem_map.mp hi2
    have h1 := hlt a ha
    have h2 := (mkNodes_ids_bound env splits g.nextId idx b hb).1
    omega
  · intro n hn
    show n.1 < g.nextId + splits.length
    rcases List.mem_append.mp hn with hn2 | hn2
    · have := hlt n hn2
      omega
    · have := (mkNodes_ids_bound env splits g.nextId idx n hn2).2
      omega
  · intro e he
    obtain ⟨a, ha, b, hb, rfl, hsame⟩ := hedge e he
    exact ⟨a, List.mem_append_left _ ha, b, List.mem_append_left _ hb, rfl, hsame⟩

theorem createChunkNodesAux_closed (env : Env) (hemb : ∀ t, (env.embedFn t).isSome = true) :
    ∀ (splits : List Doc) (idx : Nat) (g : GraphState) (cnt : Nat),
    createChunkNodesAux env splits idx (g, cnt) =
      ({ nextId := g.nextId + splits.length,
         nodes := g.nodes ++ mkNodes env splits g.nextId idx,
         edges := g.edges }, cnt + splits.length) := by
  intro splits
  induction splits with
  | nil =>
    intro idx g cnt
    rw [createChunkNodesAux, mkNodes]
    simp
  | cons d rest ih =>
    intro idx g cnt
    rw [createChunkNodesAux]
    cases hembc : env.embedFn d.text with
    | none =>
      have := hemb d.text
      rw [hembc] at this
      simp at this
    | some emb =>
      show createChunkNodesAux env rest (idx + 1) (createChunk (chunkOf d idx emb) g, cnt + 1) = _
      rw [ih (idx + 1) (createChunk (chunkOf d idx emb) g) (cnt + 1)]
      have hgd : (env.embedFn d.text).getD [] = emb := by rw [hembc]; rfl
      rw [mkNodes, hgd]
      simp only [createChunk, Prod.mk.injEq, GraphState.mk.injEq, List.length_cons]
      refine ⟨⟨by omega, ?_, trivial⟩, by omega⟩
      simp [List.append_assoc]

theorem foldl_addEdge_mem (ps : List (Nat × Nat)) :
    ∀ (es : List (Nat × Nat)), ∀ e ∈ ps.foldl addEdgeIfAbsent es, e ∈ es ∨ e ∈ ps := by
  induction ps with
  | nil => intro es e he; exact Or.inl he
  | cons p rest ih =>
    intro es e he
    rw [List.foldl_cons] at he
    rcases ih (addEdgeIfAbsent es p) e he with h2 | h2
    · rw [addEdgeIfAbsent] at h2
      by_cases hin : es.contains p = true
      · rw [if_pos hin] at h2
        exact Or.inl h2
      · rw [if_neg hin] at h2
        rcases List.mem_append.mp h2 with h3 | h3
        · exact Or.inl h3
        · rcases List.mem_singleton.mp h3 with rfl
          exact Or.inr (List.mem_cons.mpr (Or.inl rfl))
    · exact Or.inr (List.mem_cons.mpr (Or.inr h2))

theorem nextPairs_mem (s : String) (nodes : List (Nat × Chunk)) :
    ∀ p ∈ nextPairs s nodes, ∃ a ∈ nodes, ∃ b ∈ nodes,
      p = (a.1, b.1) ∧ a.2.source = s ∧ b.2.source = s := by
  intro p hp
  rw [nextPairs] at hp
  obtain ⟨a, ha, hpa⟩ := List.mem_flatMap.mp hp
  cases hsc : a.2.source == s with
  | false => rw [hsc] at hpa; simp at hpa
  | true =>
    rw [hsc] at hpa
    rw [if_pos rfl] at hpa
    obtain ⟨b, hb, hsome⟩ := List.mem_filterMap.mp hpa
    cases hcond : (b.2.source == s && b.2.chunkIndex == a.2.chunkIndex + 1) with
    | false => rw [hcond] at hsome; simp at hsome
    | true =>
      rw [hcond] at hsome
      rw [if_pos rfl] at hsome
      injection hsome with hpe
      have hcond2 := hcond
      rw [Bool.and_eq_true] at hcond2
      exact ⟨a, ha, b, hb, hpe.symm, eq_of_beq hsc, eq_of_beq hcond2.1⟩

theorem GWF_mergeNextChunkEdges (s : String) (g : GraphState) (h : GWF g) :
    GWF (mergeNextChunkEdges s g) := by
  obtain ⟨hnd, hlt, hedge⟩ := h
  refine ⟨hnd, hlt, ?_⟩
  intro e he
  have he2 : e ∈ (nextPairs s g.nodes).foldl addEdgeIfAbsent g.edges := he
  rcases foldl_addEdge_mem (nextPairs s g.nodes) g.edges e he2 with h2 | h2
  · exact hedge e h2
  · obtain ⟨a, ha, b, hb, rfl, has, hbs⟩ := nextPairs_mem s g.nodes e h2
    exact ⟨a, ha, b, hb, rfl, by rw [has, hbs]⟩

theorem GWF_foldl_merge (files : List SrcFile) (g : GraphState) (h : GWF g) :
    GWF (files.foldl (fun g f => mergeNextChunkEdges f.path g) g) := by
  induction files generalizing g with
  | nil => exact h
  | cons f rest ih =>
    rw [List.foldl_cons]
    exact ih _ (GWF_mergeNextChunkEdges f.path g h)

theorem nodes_find?_self (nodes : List (Nat × Chunk))
    (hnd : (nodes.map (fun n => n.1)).Nodup) :
    ∀ a ∈ nodes, nodes.find? (fun n => n.1 == a.1) = some a := by
  induction nodes with
  | nil => intro a ha; exact absurd ha (List.not_mem_nil a)
  | cons x rest ih =>
    intro a ha
    rcases List.mem_cons.mp ha with rfl | ha2
    · exact List.find?_cons_of_pos _ (by simp)
    · cases hx : x.1 == a.1 with
      | true =>
        exfalso
        have h1 : a.1 ∈ rest.map (fun n => n.1) := List.mem_map_of_mem _ ha2
        have h2 : x.1 ∉ rest.map (fun n => n.1) := (List.nodup_cons.mp hnd).1
        rw [eq_of_beq hx] at h2
        exact h2 h1
      | false =>
        rw [List.find?_cons_of_neg _ (by simp [hx])]
        exact ih (List.nodup_cons.mp hnd).2 a ha2

theorem idSource_of_mem (g : GraphState) (hnd : (g.nodes.map (fun n => n.1)).Nodup) :
    ∀ a ∈ g.nodes, idSource g a.1 = some a.2.source := by
  intro a ha
  rw [idSource, nodes_find?_self g.nodes hnd a ha]
  rfl

theorem GWF_edges_sameSource (g : GraphState) (h : GWF g) :
    ∀ e ∈ g.edges, ∃ src, idSource g e.1 = some src ∧ idSource g e.2 = some src := by
  intro e he
  obtain ⟨a, ha, b, hb, rfl, hsame⟩ := h.2.2 e he
  refine ⟨a.2.source, idSource_of_mem g h.1 a ha, ?_⟩
  rw [idSource_of_mem g h.1 b hb, hsame]

/-! ## Split and run decomposition lemmas -/

theorem loadDocument_source (f : SrcFile) (d : Doc) (h : loadDocument f = some d) :
    d.source = f.path := by
  rw [loadDocument] at h
  cases hro : f.readOk with
  | false => rw [hro] at h; simp at h
  | true =>
    rw [hro] at h
    cases hc : f.content with
    | pdf pages =>
      rw [hc] at h
      simp only [Bool.not_true, Bool.false_eq_true, if_false] at h
      by_cases hie : (pages.filter (fun t => !(isBlank t))).isEmpty = true
      · rw [if_pos hie] at h
        simp at h
      · rw [if_neg hie] at h
        injection h with h2
        rw [← h2]
    | md txt =>
      rw [hc] at h
      simp only [Bool.not_true, Bool.false_eq_true, if_false] at h
      injection h with h2
      rw [← h2]

theorem splitDocuments_cons (env : Env) (d : Doc) (rest : List Doc) :
    splitDocuments env (d :: rest) =
      (env.splitFn d.text).map (fun t => { d with text := t }) ++
        splitDocuments env rest := by
  rw [splitDocuments, splitDocuments, List.flatMap_cons]

theorem splitDocuments_append (env : Env) (xs ys : List Doc) :
    splitDocuments env (xs ++ ys) = splitDocuments env xs ++ splitDocuments env ys := by
  rw [splitDocuments, splitDocuments, splitDocuments, List.flatMap_append]

theorem mkNodes_length (env : Env) :
    ∀ (xs : List Doc) (base idx : Nat), (mkNodes env xs base idx).length = xs.length := by
  intro xs
  induction xs with
  | nil => intro base idx; rfl
  | cons d rest ih =>
    intro base idx
    rw [mkNodes, List.length_cons, List.length_cons, ih]

theorem mkNodes_append (env : Env) :
    ∀ (xs ys : List Doc) (base idx : Nat),
    mkNodes env (xs ++ ys) base idx =
      mkNodes env xs base idx ++ mkNodes env ys (base + xs.length) (idx + xs.length) := by
  intro xs
  induction xs with
  | nil => intro ys base idx; simp [mkNodes]
  | cons d rest ih =>
    intro ys base idx
    rw [List.cons_append, mkNodes, mkNodes, ih, List.cons_append]
    have h1 : base + 1 + rest.length = base + (d :: rest).length := by
      rw [List.length_cons]; omega
    have h2 : idx + 1 + rest.length = idx + (d :: rest).length := by
      rw [List.length_cons]; omega
    rw [h1, h2]

theorem mkNodes_map_texts (env : Env) (d : Doc) :
    ∀ (texts : List String) (base idx : Nat),
    mkNodes env (texts.map (fun t => { d with text := t })) base idx =
      chunkRun env d base idx texts := by
  intro texts
  induction texts with
  | nil => intro base idx; rfl
  | cons t rest ih =>
    intro base idx
    rw [List.map_cons, mkNodes, chunkRun, ih]
    rfl

theorem mkNodes_sources (env : Env) :
    ∀ (xs : List Doc) (base idx : Nat), ∀ x ∈ mkNodes env xs base idx,
      ∃ dx ∈ xs, x.2.source = dx.source := by
  intro xs
  induction xs with
  | nil => intro base idx x hx; exact absurd hx (List.not_mem_nil x)
  | cons d rest ih =>
    intro base idx x hx
    rw [mkNodes] at hx
    rcases List.mem_cons.mp hx with rfl | hx2
    · exact ⟨d, List.mem_cons.mpr (Or.inl rfl), rfl⟩
    · obtain ⟨dx, hdx, hsx⟩ := ih (base + 1) (idx + 1) x hx2
      exact ⟨dx, List.mem_cons.mpr (Or.inr hdx), hsx⟩

theorem chunkRun_sources (env : Env) (d : Doc) :
    ∀ (texts : List String) (base off : Nat), ∀ x ∈ chunkRun env d base off texts,
      x.2.source = d.source := by
  intro texts
  induction texts with
  | nil => intro base off x hx; exact absurd hx (List.not_mem_nil x)
  | cons t rest ih =>
    intro base off x hx
    rw [chunkRun] at hx
    rcases List.mem_cons.mp hx with rfl | hx2
    · rfl
    · exact ih (base + 1) (off + 1) x hx2

theorem chunkRun_mem_of_lt (env : Env) (d : Doc) :
    ∀ (texts : List String) (base off i : Nat), i < texts.length →
      ∃ c, (base + i, c) ∈ chunkRun env d base off texts ∧ c.source = d.source := by
  intro texts
  induction texts with
  | nil => intro base off i hi; simp at hi
  | cons t rest ih =>
    intro base off i hi
    cases i with
    | zero =>
      refine ⟨{ text := t, source := d.source, filename := d.filename, chunkIndex := off,
                embedding := (env.embedFn t).getD [] }, ?_, rfl⟩
      rw [chunkRun]
      exact List.mem_cons.mpr (Or.inl (by rw [Nat.add_zero]))
    | succ j =>
      obtain ⟨c, hc, hcs⟩ := ih (base + 1) (off + 1) j (by simpa using hi)
      refine ⟨c, ?_, hcs⟩
      rw [chunkRun]
      refine List.mem_cons.mpr (Or.inr ?_)
      have : base + 1 + j = base + (j + 1) := by omega
      rw [← this]
      exact hc

theorem chunkRun_filter_self (env : Env) (d : Doc) (texts : List String) (base off : Nat) :
    (chunkRun env d base off texts).filter (fun x => x.2.source == d.source) =
      chunkRun env d base off texts := by
  rw [List.filter_eq_self]
  intro x hx
  rw [chunkRun_sources env d texts base off x hx]
  simp

theorem consecPairs_mem (base n : Nat) :
    ∀ p ∈ consecPairs base n, ∃ i, i + 1 < n ∧ p = (base + i, base + i + 1) := by
  intro p hp
  rw [consecPairs] at hp
  obtain ⟨i, hi, rfl⟩ := List.mem_map.mp hp
  have := List.mem_range.mp hi
  exact ⟨i, by omega, rfl⟩

theorem consecPairs_length (base n : Nat) : (consecPairs base n).length = n - 1 := by
  rw [consecPairs, List.length_map, List.length_range]

theorem consecPairs_nodup (base n : Nat) : (consecPairs base n).Nodup := by
  rw [consecPairs]
  refine List.Nodup.map ?_ (List.nodup_range _)
  intro i j hij
  rw [Prod.mk.injEq] at hij
  omega

theorem docs_sources_sublist :
    ∀ (tp : List SrcFile),
    ((tp.filterMap loadDocument).map (fun d => d.source)).Sublist
      (tp.map (fun f => f.path)) := by
  intro tp
  induction tp with
  | nil => exact List.Sublist.refl []
  | cons f rest ih =>
    rw [List.filterMap_cons, List.map_cons]
    cases hld : loadDocument f with
    | none => exact List.Sublist.cons _ ih
    | some d =>
      rw [List.map_cons, loadDocument_source f d hld]
      exact List.Sublist.cons₂ _ ih

theorem filterMap_load_source (tp : List SrcFile) :
    ∀ d ∈ tp.filterMap loadDocument, ∃ f ∈ tp, d.source = f.path := by
  intro d hd
  obtain ⟨f, hf, hld⟩ := List.mem_filterMap.mp hd
  exact ⟨f, hf, loadDocument_source f d hld⟩

/-! ## The sequential-relationship join on a fresh chunk run -/

theorem flatMap_eq_nil_of {α β : Type} (l : List α) (f : α → List β)
    (h : ∀ a ∈ l, f a = []) : l.flatMap f = [] := by
  induction l with
  | nil => rfl
  | cons a rest ih =>
    rw [List.flatMap_cons, h a (List.mem_cons.mpr (Or.inl rfl)), List.nil_append]
    exact ih (fun x hx => h x (List.mem_cons.mpr (Or.inr hx)))

theorem flatMap_congr_mem {α β : Type} (l : List α) (f g : α → List β)
    (h : ∀ a ∈ l, f a = g a) : l.flatMap f = l.flatMap g := by
  induction l with
  | nil => rfl
  | cons a rest ih =>
    rw [List.flatMap_cons, List.flatMap_cons, h a (List.mem_cons.mpr (Or.inl rfl)),
      ih (fun x hx => h x (List.mem_cons.mpr (Or.inr hx)))]

theorem flatMap_singleton_eq_map {α β : Type} (l : List α) (f : α → β) :
    l.flatMap (fun a => [f a]) = l.map f := by
  induction l with
  | nil => rfl
  | cons a rest ih => rw [List.flatMap_cons, List.map_cons, ih]; rfl

theorem filterMap_eq_nil_of {α β : Type} (l : List α) (f : α → Option β)
    (h : ∀ a ∈ l, f a = none) : l.filterMap f = [] := by
  induction l with
  | nil => rfl
  | cons a rest ih =>
    rw [List.filterMap_cons, h a (List.mem_cons.mpr (Or.inl rfl))]
    exact ih (fun x hx => h x (List.mem_cons.mpr (Or.inr hx)))

theorem chunkRun_filterMap_target (env : Env) (d : Doc) (aid : Nat) :
    ∀ (texts : List String) (base off tgt : Nat),
    (chunkRun env d base off texts).filterMap (fun b2 =>
        if b2.2.source == d.source && b2.2.chunkIndex == tgt then some (aid, b2.1)
        else none) =
      (if off ≤ tgt ∧ tgt - off < texts.length then [(aid, base + (tgt - off))] else []) := by
  intro texts
  induction texts with
  | nil =>
    intro base off tgt
    rw [chunkRun]
    simp
  | cons t rest ih =>
    intro base off tgt
    rw [chunkRun, List.filterMap_cons]
    rw [ih (base + 1) (off + 1) tgt]
    simp only [List.length_cons, beq_self_eq_true, Bool.true_and]
    by_cases htgt : off = tgt
    · subst htgt
      rw [if_neg (show ¬(off + 1 ≤ off ∧ off - (off + 1) < rest.length) from by omega)]
      rw [if_pos (show off ≤ off ∧ off - off < rest.length + 1 from by omega)]
      simp
    · have h3 : (off == tgt) = false := by simp [htgt]
      simp only [h3, Bool.false_eq_true, if_false]
      by_cases hle : off + 1 ≤ tgt ∧ tgt - (off + 1) < rest.length
      · rw [if_pos hle, if_pos (by omega)]
        have he : base + 1 + (tgt - (off + 1)) = base + (tgt - off) := by omega
        rw [he]
      · rw [if_neg hle, if_neg (by omega)]

theorem innerJoin_value (env : Env) (d : Doc) (P Q : List (Nat × Chunk))
    (hP : ∀ x ∈ P, (x.2.source == d.source) = false)
    (hQ : ∀ x ∈ Q, (x.2.source == d.source) = false)
    (texts : List String) (b0 o0 aid k : Nat) :
    (P ++ chunkRun env d b0 o0 texts ++ Q).filterMap (fun b2 =>
        if b2.2.source == d.source && b2.2.chunkIndex == o0 + k + 1 then some (aid, b2.1)
        else none) =
      (if k + 1 < texts.length then [(aid, b0 + (k + 1))] else []) := by
  rw [List.filterMap_append, List.filterMap_append]
  rw [filterMap_eq_nil_of P _ (fun x hx => by rw [hP x hx]; rfl)]
  rw [filterMap_eq_nil_of Q _ (fun x hx => by rw [hQ x hx]; rfl)]
  rw [chunkRun_filterMap_target env d aid texts b0 o0 (o0 + k + 1)]
  rw [List.nil_append, List.append_nil]
  have he : o0 + k + 1 - o0 = k + 1 := by omega
  rw [he]
  by_cases hlt : k + 1 < texts.length
  · rw [if_pos (by omega), if_pos hlt]
  · rw [if_neg (by omega), if_neg hlt]

theorem flatMap_chunkRun {α : Type} (env : Env) (d : Doc) (o0 : Nat)
    (gfun : Nat × Chunk → List α) (v : Nat → Nat → List α)
    (hval : ∀ bx ox tx, o0 ≤ ox →
      gfun (bx, { text := tx, source := d.source, filename := d.filename,
                  chunkIndex := ox, embedding := (env.embedFn tx).getD [] }) = v bx ox) :
    ∀ (texts : List String) (base off : Nat), o0 ≤ off →
    (chunkRun env d base off texts).flatMap gfun =
      (List.range texts.length).flatMap (fun i => v (base + i) (off + i)) := by
  intro texts
  induction texts with
  | nil => intro base off _; rfl
  | cons t rest ih =>
    intro base off hoff
    rw [chunkRun, List.flatMap_cons]
    rw [hval base off t hoff]
    rw [ih (base + 1) (off + 1) (by omega)]
    rw [List.length_cons, List.range_succ_eq_map, List.flatMap_cons, List.flatMap_map]
    have hz : v (base + 0) (off + 0) = v base off := by rw [Nat.add_zero, Nat.add_zero]
    rw [hz]
    have hcg : (List.range rest.length).flatMap
          (fun i => v (base + 1 + i) (off + 1 + i)) =
        (List.range rest.length).flatMap
          (fun a => v (base + a.succ) (off + a.succ)) := by
      apply flatMap_congr_mem
      intro i _
      have e1 : base + 1 + i = base + i.succ := by omega
      have e2 : off + 1 + i = off + i.succ := by omega
      rw [e1, e2]
    rw [hcg]

theorem rangeFlatMap_consecPairs (b0 : Nat) :
    ∀ n : Nat, (List.range n).flatMap
        (fun i => if i + 1 < n then [(b0 + i, b0 + i + 1)] else []) =
      consecPairs b0 n := by
  intro n
  cases n with
  | zero => rfl
  | succ m =>
    rw [List.range_succ, List.flatMap_append]
    have hlast : [m].flatMap
        (fun i => if i + 1 < m + 1 then [(b0 + i, b0 + i + 1)] else []) = [] := by
      rw [List.flatMap_cons]
      rw [if_neg (by omega)]
      rfl
    rw [hlast, List.append_nil]
    have hall : (List.range m).flatMap
          (fun i => if i + 1 < m + 1 then [(b0 + i, b0 + i + 1)] else []) =
        (List.range m).flatMap (fun i => [(b0 + i, b0 + i + 1)]) := by
      apply flatMap_congr_mem
      intro i hi
      rw [if_pos (by have := List.mem_range.mp hi; omega)]
    rw [hall, flatMap_singleton_eq_map, consecPairs]
    rfl

theorem nextPairs_empty (s : String) (nodes : List (Nat × Chunk))
    (h : ∀ x ∈ nodes, (x.2.source == s) = false) :
    nextPairs s nodes = [] := by
  rw [nextPairs]
  apply flatMap_eq_nil_of
  intro a ha
  rw [h a ha]
  rfl

theorem nextPairs_characterize (env : Env) (d : Doc) (P Q : List (Nat × Chunk))
    (hP : ∀ x ∈ P, (x.2.source == d.source) = false)
    (hQ : ∀ x ∈ Q, (x.2.source == d.source) = false)
    (texts : List String) (b0 o0 : Nat) :
    nextPairs d.source (P ++ chunkRun env d b0 o0 texts ++ Q) =
      consecPairs b0 texts.length := by
  rw [nextPairs, List.flatMap_append, List.flatMap_append]
  rw [flatMap_eq_nil_of P _ (fun x hx => by rw [hP x hx]; rfl)]
  rw [flatMap_eq_nil_of Q _ (fun x hx => by rw [hQ x hx]; rfl)]
  rw [List.nil_append, List.append_nil]
  have hmid := flatMap_chunkRun env d o0
    (fun a =>
      if a.2.source == d.source then
        (P ++ chunkRun env d b0 o0 texts ++ Q).filterMap (fun b2 =>
          if b2.2.source == d.source && b2.2.chunkIndex == a.2.chunkIndex + 1
          then some (a.1, b2.1) else none)
      else [])
    (fun bx ox =>
      if (ox - o0) + 1 < texts.length then [(bx, b0 + ((ox - o0) + 1))] else [])
    ?hval texts b0 o0 (Nat.le_refl o0)
  case hval =>
    intro bx ox tx hox
    simp only [beq_self_eq_true, if_pos rfl]
    have hin := innerJoin_value env d P Q hP hQ texts b0 o0 bx (ox - o0)
    have he : o0 + (ox - o0) + 1 = ox + 1 := by omega
    rw [he] at hin
    exact hin
  rw [hmid]
  have hcg : (List.range texts.length).flatMap
        (fun i =>
          if ((o0 + i) - o0) + 1 < texts.length
          then [(b0 + i, b0 + (((o0 + i) - o0) + 1))] else []) =
      (List.range texts.length).flatMap
        (fun i => if i + 1 < texts.length then [(b0 + i, b0 + i + 1)] else []) := by
    apply flatMap_congr_mem
    intro i _
    have he : (o0 + i) - o0 = i := by omega
    rw [he]
    rfl
  rw [hcg, rangeFlatMap_consecPairs]

/-! ## The sequential-relationship fold over all processed files -/

theorem splitDocuments_sources (env : Env) (docs : List Doc) :
    ∀ x ∈ splitDocuments env docs, ∃ dd ∈ docs, x.source = dd.source := by
  intro x hx
  rw [splitDocuments] at hx
  obtain ⟨dd, hdd, hx2⟩ := List.mem_flatMap.mp hx
  obtain ⟨t, _, rfl⟩ := List.mem_map.mp hx2
  exact ⟨dd, hdd, rfl⟩

theorem splitDocuments_singleton (env : Env) (d : Doc) :
    splitDocuments env [d] = (env.splitFn d.text).map (fun t => { d with text := t }) := by
  rw [splitDocuments, List.flatMap_cons]
  simp

theorem mergeNextChunkEdges_no_source (s : String) (g : GraphState)
    (h : ∀ x ∈ g.nodes, ¬(x.2.source = s)) :
    mergeNextChunkEdges s g = g := by
  rw [mergeNextChunkEdges,
    nextPairs_empty s g.nodes (fun x hx => beq_eq_false_iff_ne.mpr (h x hx))]
  rfl

theorem foldl_addEdge_append (ps : List (Nat × Nat)) :
    ∀ (es : List (Nat × Nat)), (∀ p ∈ ps, p ∉ es) → ps.Nodup →
    ps.foldl addEdgeIfAbsent es = es ++ ps := by
  induction ps with
  | nil => intro es _ _; rw [List.foldl_nil, List.append_nil]
  | cons p rest ih =>
    intro es hfresh hnd
    rw [List.foldl_cons]
    have hpc : es.contains p = false := by
      cases hc : es.contains p with
      | false => rfl
      | true =>
        exact absurd (by simpa using hc) (hfresh p (List.mem_cons.mpr (Or.inl rfl)))
    have hstep : addEdgeIfAbsent es p = es ++ [p] := by
      rw [addEdgeIfAbsent, hpc]
      rfl
    rw [hstep, ih (es ++ [p]) ?fresh (List.nodup_cons.mp hnd).2, List.append_assoc]
    rfl
    case fresh =>
      intro q hq hmem
      rcases List.mem_append.mp hmem with h2 | h2
      · exact hfresh q (List.mem_cons.mpr (Or.inr hq)) h2
      · rcases List.mem_singleton.mp h2 with rfl
        exact (List.nodup_cons.mp hnd).1 hq

theorem consecPairs_fst_bound (base n : Nat) :
    ∀ p ∈ consecPairs base n, base ≤ p.1 ∧ p.1 < base + n := by
  intro p hp
  obtain ⟨i, hi, rfl⟩ := consecPairs_mem base n p hp
  exact ⟨by omega, by omega⟩

theorem foldl_merge_edges (env : Env) (b0 : Nat) :
    ∀ (tpR : List SrcFile) (docsDone : List Doc) (K : List (Nat × Chunk)) (g : GraphState),
    g.nodes = K ++ mkNodes env (splitDocuments env (docsDone ++ tpR.filterMap loadDocument)) b0 0 →
    (∀ x ∈ K, ∀ f ∈ tpR, ¬(x.2.source = f.path)) →
    (∀ dd ∈ docsDone, ∀ f ∈ tpR, ¬(dd.source = f.path)) →
    (tpR.map (fun f => f.path)).Nodup →
    (∀ e ∈ g.edges, e.1 < b0 + (splitDocuments env docsDone).length) →
    (tpR.foldl (fun g f => mergeNextChunkEdges f.path g) g).edges =
      g.edges ++ allPairs env (tpR.filterMap loadDocument)
        (b0 + (splitDocuments env docsDone).length) := by
  intro tpR
  induction tpR with
  | nil =>
    intro docsDone K g _ _ _ _ _
    rw [List.foldl_nil, List.filterMap_nil, allPairs, List.append_nil]
  | cons f rest ih =>
    intro docsDone K g hnodes hK hDone hndp hbound
    rw [List.foldl_cons]
    have hndp2 : (rest.map (fun f2 => f2.path)).Nodup := (List.nodup_cons.mp hndp).2
    have hfns : f.path ∉ rest.map (fun f2 => f2.path) := (List.nodup_cons.mp hndp).1
    cases hld : loadDocument f with
    | none =>
      have hfm : (f :: rest).filterMap loadDocument = rest.filterMap loadDocument := by
        rw [List.filterMap_cons, hld]
      have hnosrc : ∀ x ∈ g.nodes, ¬(x.2.source = f.path) := by
        intro x hx hxs
        rw [hnodes] at hx
        rcases List.mem_append.mp hx with h2 | h2
        · exact hK x h2 f (List.mem_cons.mpr (Or.inl rfl)) hxs
        · obtain ⟨dx, hdx, hsx⟩ := mkNodes_sources env _ b0 0 x h2
          obtain ⟨dd, hdd, hsd⟩ := splitDocuments_sources env _ dx hdx
          rcases List.mem_append.mp hdd with h3 | h3
          · exact hDone dd h3 f (List.mem_cons.mpr (Or.inl rfl)) (by rw [← hsd, ← hsx, hxs])
          · rw [hfm] at h3
            obtain ⟨f2, hf2, hsf2⟩ := filterMap_load_source rest dd h3
            apply hfns
            rw [← hxs, hsx, hsd, hsf2]
            exact List.mem_map_of_mem _ hf2
      rw [mergeNextChunkEdges_no_source f.path g hnosrc, hfm]
      rw [ih docsDone K g (by rw [hnodes, hfm])
        (fun x hx f2 hf2 => hK x hx f2 (List.mem_cons.mpr (Or.inr hf2)))
        (fun dd hdd f2 hf2 => hDone dd hdd f2 (List.mem_cons.mpr (Or.inr hf2)))
        hndp2 hbound]
    | some d =>
      have hdsrc : d.source = f.path := loadDocument_source f d hld
      have hfm : (f :: rest).filterMap loadDocument = d :: rest.filterMap loadDocument := by
        rw [List.filterMap_cons, hld]
      have hsplit : splitDocuments env (docsDone ++ (f :: rest).filterMap loadDocument) =
          splitDocuments env docsDone ++
            (env.splitFn d.text).map (fun t => { d with text := t }) ++
            splitDocuments env (rest.filterMap loadDocument) := by
        rw [hfm]
        have : docsDone ++ d :: rest.filterMap loadDocument =
            (docsDone ++ [d]) ++ rest.filterMap loadDocument := by
          rw [List.append_assoc]
          rfl
        rw [this, splitDocuments_append, splitDocuments_append, splitDocuments_singleton]
      have hnodes2 : g.nodes =
          (K ++ mkNodes env (splitDocuments env docsDone) b0 0) ++
            chunkRun env d (b0 + (splitDocuments env docsDone).length)
              ((splitDocuments env docsDone).length) (env.splitFn d.text) ++
            mkNodes env (splitDocuments env (rest.filterMap loadDocument))
              (b0 + (splitDocuments env docsDone).length + (env.splitFn d.text).length)
              ((splitDocuments env docsDone).length + (env.splitFn d.text).length) := by
        rw [hnodes, hsplit, mkNodes_append, mkNodes_append, mkNodes_map_texts]
        rw [List.length_append, List.length_map, Nat.zero_add]
        rw [List.append_assoc, List.append_assoc, List.append_assoc]
        have e1 : b0 + ((splitDocuments env docsDone).length + (env.splitFn d.text).length) =
            b0 + (splitDocuments env docsDone).length + (env.splitFn d.text).length := by
          omega
        have e2 : 0 + ((splitDocuments env docsDone).length + (env.splitFn d.text).length) =
            (splitDocuments env docsDone).length + (env.splitFn d.text).length := by
          omega
        rw [e1, e2]
      have hPsrc : ∀ x ∈ K ++ mkNodes env (splitDocuments env docsDone) b0 0,
          (x.2.source == d.source) = false := by
        intro x hx
        apply beq_eq_false_iff_ne.mpr
        intro hxs
        rcases List.mem_append.mp hx with h2 | h2
        · exact hK x h2 f (List.mem_cons.mpr (Or.inl rfl)) (by rw [hxs, hdsrc])
        · obtain ⟨dx, hdx, hsx⟩ := mkNodes_sources env _ b0 0 x h2
          obtain ⟨dd, hdd, hsd⟩ := splitDocuments_sources env _ dx hdx
          exact hDone dd hdd f (List.mem_cons.mpr (Or.inl rfl))
            (by rw [← hsd, ← hsx, hxs, hdsrc])
      have hQsrc : ∀ x ∈ mkNodes env (splitDocuments env (rest.filterMap loadDocument))
            (b0 + (splitDocuments env docsDone).length + (env.splitFn d.text).length)
            ((splitDocuments env docsDone).length + (env.splitFn d.text).length),
          (x.2.source == d.source) = false := by
        intro x hx
        apply beq_eq_false_iff_ne.mpr
        intro hxs
        obtain ⟨dx, hdx, hsx⟩ := mkNodes_sources env _ _ _ x hx
        obtain ⟨dd, hdd, hsd⟩ := splitDocuments_sources env _ dx hdx
        obtain ⟨f2, hf2, hsf2⟩ := filterMap_load_source rest dd hdd
        apply hfns
        rw [← hdsrc, ← hxs, hsx, hsd, hsf2]
        exact List.mem_map_of_mem _ hf2
      have hnp : nextPairs f.path g.nodes =
          consecPairs (b0 + (splitDocuments env docsDone).length)
            (env.splitFn d.text).length := by
        rw [← hdsrc, hnodes2]
        rw [nextPairs_characterize env d _ _ hPsrc hQsrc]
      have hstep : mergeNextChunkEdges f.path g =
          { g with edges := g.edges ++ consecPairs (b0 + (splitDocuments env docsDone).length) (env.splitFn d.text).length } := by
        rw [mergeNextChunkEdges, hnp]
        rw [foldl_addEdge_append _ g.edges ?fresh (consecPairs_nodup _ _)]
        case fresh =>
          intro p hp hpe
          have h1 := (consecPairs_fst_bound _ _ p hp).1
          have h2 := hbound p hpe
          omega
      rw [hstep]
      have hlen2 : (splitDocuments env (docsDone ++ [d])).length =
          (splitDocuments env docsDone).length + (env.splitFn d.text).length := by
        rw [splitDocuments_append, splitDocuments_singleton, List.length_append,
          List.length_map]
      have hih := ih (docsDone ++ [d]) K
        { g with edges := g.edges ++ consecPairs (b0 + (splitDocuments env docsDone).length) (env.splitFn d.text).length }
        ?nodes ?hK2 ?hDone2 hndp2 ?bound2
      case nodes =>
        show g.nodes = _
        rw [hnodes, hfm]
        rw [List.append_assoc docsDone [d]]
        rfl
      case hK2 =>
        exact fun x hx f2 hf2 => hK x hx f2 (List.mem_cons.mpr (Or.inr hf2))
      case hDone2 =>
        intro dd hdd f2 hf2
        rcases List.mem_append.mp hdd with h2 | h2
        · exact hDone dd h2 f2 (List.mem_cons.mpr (Or.inr hf2))
        · rcases List.mem_singleton.mp h2 with rfl
          intro hdf
          apply hfns
          rw [← hdsrc, hdf]
          exact List.mem_map_of_mem _ hf2
      case bound2 =>
        intro e he
        rw [hlen2]
        rcases List.mem_append.mp he with h2 | h2
        · have := hbound e h2
          omega
        · have := (consecPairs_fst_bound _ _ e h2).2
          omega
      rw [hih, hfm, allPairs, hlen2]
      rw [List.append_assoc]
      have hb2 : b0 + ((splitDocuments env docsDone).length + (env.splitFn d.text).length) =
          b0 + (splitDocuments env docsDone).length + (env.splitFn d.text).length := by
        omega
      rw [hb2]

/-! ## Locating one file's segment inside the batch -/

theorem filter_eq_nil_of {α : Type} (l : List α) (p : α → Bool)
    (h : ∀ a ∈ l, p a = false) : l.filter p = [] := by
  induction l with
  | nil => rfl
  | cons a rest ih =>
    rw [List.filter_cons, h a (List.mem_cons.mpr (Or.inl rfl))]
    exact ih (fun x hx => h x (List.mem_cons.mpr (Or.inr hx)))

theorem allPairs_append (env : Env) :
    ∀ (xs ys : List Doc) (base : Nat),
    allPairs env (xs ++ ys) base =
      allPairs env xs base ++ allPairs env ys (base + (splitDocuments env xs).length) := by
  intro xs
  induction xs with
  | nil => intro ys base; rfl
  | cons dx rest ih =>
    intro ys base
    rw [List.cons_append, allPairs, allPairs, ih, List.append_assoc]
    have he : base + (env.splitFn dx.text).length + (splitDocuments env rest).length =
        base + (splitDocuments env (dx :: rest)).length := by
      rw [splitDocuments_cons, List.length_append, List.length_map]
      omega
    rw [he]

theorem foldl_detach_no_source :
    ∀ (ps : List String) (g : GraphState),
      ∀ x ∈ (ps.foldl (fun g p => detachDeleteBySource p g) g).nodes,
        x ∈ g.nodes ∧ ∀ p ∈ ps, ¬(x.2.source = p) := by
  intro ps
  induction ps with
  | nil =>
    intro g x hx
    exact ⟨hx, fun p hp => absurd hp (List.not_mem_nil p)⟩
  | cons p rest ih =>
    intro g x hx
    rw [List.foldl_cons] at hx
    obtain ⟨hx2, hrest⟩ := ih (detachDeleteBySource p g) x hx
    have hx3 : x ∈ g.nodes.filter (fun n => !(n.2.source == p)) := hx2
    obtain ⟨hxg, hxp⟩ := List.mem_filter.mp hx3
    refine ⟨hxg, ?_⟩
    intro q hq
    rcases List.mem_cons.mp hq with rfl | hq2
    · have hb : (x.2.source == q) = false := by simpa using hxp
      exact beq_eq_false_iff_ne.mp hb
    · exact hrest q hq2

theorem allPairs_idSource (env : Env) (g : GraphState)
    (hnd : (g.nodes.map (fun n => n.1)).Nodup) :
    ∀ (docs : List Doc) (base idx : Nat),
    (∀ x ∈ mkNodes env (splitDocuments env docs) base idx, x ∈ g.nodes) →
    ∀ p ∈ allPairs env docs base,
      ∃ d2 ∈ docs, idSource g p.1 = some d2.source ∧ idSource g p.2 = some d2.source := by
  intro docs
  induction docs with
  | nil => intro base idx _ p hp; exact absurd hp (List.not_mem_nil p)
  | cons dx rest ih =>
    intro base idx hsub p hp
    have hdec : mkNodes env (splitDocuments env (dx :: rest)) base idx =
        chunkRun env dx base idx (env.splitFn dx.text) ++
          mkNodes env (splitDocuments env rest) (base + (env.splitFn dx.text).length)
            (idx + (env.splitFn dx.text).length) := by
      rw [splitDocuments_cons, mkNodes_append, mkNodes_map_texts, List.length_map]
    rw [allPairs] at hp
    rcases List.mem_append.mp hp with h2 | h2
    · obtain ⟨i, hi, rfl⟩ := consecPairs_mem base _ p h2
      obtain ⟨c1, hc1, hs1⟩ :=
        chunkRun_mem_of_lt env dx (env.splitFn dx.text) base idx i (by omega)
      obtain ⟨c2, hc2, hs2⟩ :=
        chunkRun_mem_of_lt env dx (env.splitFn dx.text) base idx (i + 1) hi
      have hm1 : (base + i, c1) ∈ g.nodes := by
        apply hsub
        rw [hdec]
        exact List.mem_append_left _ hc1
      have hm2 : (base + (i + 1), c2) ∈ g.nodes := by
        apply hsub
        rw [hdec]
        exact List.mem_append_left _ hc2
      have h1 : idSource g (base + i) = some c1.source :=
        idSource_of_mem g hnd (base + i, c1) hm1
      have h3 : idSource g (base + i + 1) = some c2.source :=
        idSource_of_mem g hnd (base + (i + 1), c2) hm2
      refine ⟨dx, List.mem_cons.mpr (Or.inl rfl), ?_, ?_⟩
      · show idSource g (base + i) = some dx.source
        rw [h1, hs1]
      · show idSource g (base + i + 1) = some dx.source
        rw [h3, hs2]
    · obtain ⟨d2, hd2, hp2⟩ := ih (base + (env.splitFn dx.text).length)
        (idx + (env.splitFn dx.text).length)
        (fun x hx => hsub x (by rw [hdec]; exact List.mem_append_right _ hx)) p h2
      exact ⟨d2, List.mem_cons.mpr (Or.inr hd2), hp2⟩

/-- The graph side of a full-processing build: starting from a
well-formed store, after detaching the processed files' old chunks,
creating the new chunk nodes and merging the sequential relationships,
the store is well-formed again and each processed file that yielded a
document owns exactly a consecutive run of chunk nodes joined by the
consecutive NEXT_CHUNK edges. -/
theorem graph_pipeline_spec (env : Env) (tp : List SrcFile) (g0 g1 g2 g3 : GraphState)
    (hgw0 : GWF g0)
    (hndtp : (tp.map (fun f => f.path)).Nodup)
    (hemb : ∀ t, (env.embedFn t).isSome = true)
    (hg1 : g1 = tp.foldl (fun g f => detachDeleteBySource f.path g) g0)
    (hg2 : g2 = (createChunkNodes env (splitDocuments env (tp.filterMap loadDocument)) g1).1)
    (hg3 : g3 = tp.foldl (fun g f => mergeNextChunkEdges f.path g) g2) :
    GWF g3 ∧
    (∀ f ∈ tp, ∀ d, loadDocument f = some d →
      ∃ base off,
        nodesOfSource g3 f.path = chunkRun env d base off (env.splitFn d.text) ∧
        edgesAmong g3 f.path = consecPairs base (env.splitFn d.text).length ∧
        (edgesAmong g3 f.path).length = (env.splitFn d.text).length - 1) := by
  have hfold : (tp.map (fun f => f.path)).foldl (fun g p => detachDeleteBySource p g) g0 =
      tp.foldl (fun g f => detachDeleteBySource f.path g) g0 :=
    List.foldl_map _ _ _ _
  have hgwg1 : GWF g1 := by
    rw [hg1, ← hfold]
    exact GWF_foldl_detach _ _ hgw0
  have hnosrc1 : ∀ x ∈ g1.nodes, ∀ f2 ∈ tp, ¬(x.2.source = f2.path) := by
    intro x hx f2 hf2
    have h2 := foldl_detach_no_source (tp.map (fun f => f.path)) g0 x
      (by rw [hfold, ← hg1]; exact hx)
    exact h2.2 f2.path (List.mem_map_of_mem _ hf2)
  have hg2c : g2 =
      { nextId := g1.nextId + (splitDocuments env (tp.filterMap loadDocument)).length,
        nodes := g1.nodes ++ mkNodes env (splitDocuments env (tp.filterMap loadDocument)) g1.nextId 0,
        edges := g1.edges } := by
    rw [hg2, createChunkNodes, createChunkNodesAux_closed env hemb]
  have hgwg2 : GWF g2 := by
    rw [hg2c]
    exact GWF_append_mkNodes env _ 0 g1 hgwg1
  have hnodes2 : g2.nodes = g1.nodes ++
      mkNodes env (splitDocuments env (tp.filterMap loadDocument)) g1.nextId 0 := by
    rw [hg2c]
  have hedges2 : g2.edges = g1.edges := by rw [hg2c]
  have hnodes3 : g3.nodes = g2.nodes := by
    rw [hg3]
    exact foldl_merge_nodes tp g2
  have hgwg3 : GWF g3 := by
    rw [hg3]
    exact GWF_foldl_merge tp g2 hgwg2
  have hedges3 : g3.edges = g1.edges ++
      allPairs env (tp.filterMap loadDocument) g1.nextId := by
    rw [hg3]
    have h4 := foldl_merge_edges env g1.nextId tp [] g1.nodes g2 ?nodes ?hK ?hDone hndtp ?bound
    · rw [h4, hedges2]
      rfl
    case nodes =>
      rw [hnodes2]
      rfl
    case hK =>
      exact fun x hx f2 hf2 => hnosrc1 x hx f2 hf2
    case hDone =>
      exact fun dd hdd => absurd hdd (List.not_mem_nil dd)
    case bound =>
      intro e he
      have he2 : e ∈ g1.edges := by rw [← hedges2]; exact he
      obtain ⟨a, ha, b, hb, he3, _⟩ := hgwg1.2.2 e he2
      have hlt := hgwg1.2.1 a ha
      show e.1 < g1.nextId + ([] : List Doc).length
      rw [he3]
      show a.1 < g1.nextId + 0
      omega
  refine ⟨hgwg3, ?_⟩
  intro f hf d hld
  have hdf : d.source = f.path := loadDocument_source f d hld
  have hdmem : d ∈ tp.filterMap loadDocument := List.mem_filterMap.mpr ⟨f, hf, hld⟩
  obtain ⟨pre, post, hde⟩ := List.append_of_mem hdmem
  have hsplitdec : splitDocuments env (tp.filterMap loadDocument) =
      splitDocuments env pre ++
        (env.splitFn d.text).map (fun t => { d with text := t }) ++
        splitDocuments env post := by
    rw [hde]
    have h5 : pre ++ d :: post = (pre ++ [d]) ++ post := by
      rw [List.append_assoc]
      rfl
    rw [h5, splitDocuments_append, splitDocuments_append, splitDocuments_singleton]
  have hnodesdec : g3.nodes =
      g1.nodes ++ mkNodes env (splitDocuments env pre) g1.nextId 0 ++
        chunkRun env d (g1.nextId + (splitDocuments env pre).length)
          ((splitDocuments env pre).length) (env.splitFn d.text) ++
        mkNodes env (splitDocuments env post)
          (g1.nextId + (splitDocuments env pre).length + (env.splitFn d.text).length)
          ((splitDocuments env pre).length + (env.splitFn d.text).length) := by
    rw [hnodes3, hnodes2, hsplitdec, mkNodes_append, mkNodes_append, mkNodes_map_texts]
    rw [List.length_append, List.length_map, Nat.zero_add]
    rw [List.append_assoc, List.append_assoc, List.append_assoc]
    have e1 : g1.nextId + ((splitDocuments env pre).length + (env.splitFn d.text).length) =
        g1.nextId + (splitDocuments env pre).length + (env.splitFn d.text).length := by
      omega
    have e2 : 0 + ((splitDocuments env pre).length + (env.splitFn d.text).length) =
        (splitDocuments env pre).length + (env.splitFn d.text).length := by
      omega
    rw [e1, e2]
  have hndsrc : ((pre ++ d :: post).map (fun d2 => d2.source)).Nodup := by
    rw [← hde]
    exact hndtp.sublist (docs_sources_sublist tp)
  have hdnp : d.source ∉ pre.map (fun d2 => d2.source) ∧
      d.source ∉ post.map (fun d2 => d2.source) := by
    rw [List.map_append, List.map_cons] at hndsrc
    obtain ⟨h1, h2, h3⟩ := List.nodup_append.mp hndsrc
    exact ⟨fun hmem => h3 hmem (List.mem_cons.mpr (Or.inl rfl)),
      (List.nodup_cons.mp h2).1⟩
  have hdpre : ∀ d2 ∈ pre, ¬(d2.source = d.source) := by
    intro d2 hd2 hco
    exact hdnp.1 (hco ▸ List.mem_map_of_mem _ hd2)
  have hdpost : ∀ d2 ∈ post, ¬(d2.source = d.source) := by
    intro d2 hd2 hco
    exact hdnp.2 (hco ▸ List.mem_map_of_mem _ hd2)
  have hPsrc : ∀ x ∈ g1.nodes ++ mkNodes env (splitDocuments env pre) g1.nextId 0,
      (x.2.source == d.source) = false := by
    intro x hx
    apply beq_eq_false_iff_ne.mpr
    intro hxs
    rcases List.mem_append.mp hx with h2 | h2
    · exact hnosrc1 x h2 f hf (by rw [hxs, hdf])
    · obtain ⟨dx, hdx, hsx⟩ := mkNodes_sources env _ g1.nextId 0 x h2
      obtain ⟨dd, hdd, hsd⟩ := splitDocuments_sources env _ dx hdx
      exact hdpre dd hdd (by rw [← hsd, ← hsx, hxs])
  have hQsrc : ∀ x ∈ mkNodes env (splitDocuments env post)
        (g1.nextId + (splitDocuments env pre).length + (env.splitFn d.text).length)
        ((splitDocuments env pre).length + (env.splitFn d.text).length),
      (x.2.source == d.source) = false := by
    intro x hx
    apply beq_eq_false_iff_ne.mpr
    intro hxs
    obtain ⟨dx, hdx, hsx⟩ := mkNodes_sources env _ _ _ x hx
    obtain ⟨dd, hdd, hsd⟩ := splitDocuments_sources env _ dx hdx
    exact hdpost dd hdd (by rw [← hsd, ← hsx, hxs])
  have hsubpre : ∀ x ∈ mkNodes env (splitDocuments env pre) g1.nextId 0, x ∈ g3.nodes := by
    intro x hx
    rw [hnodesdec]
    exact List.mem_append_left _ (List.mem_append_left _ (List.mem_append_right _ hx))
  have hsubpost : ∀ x ∈ mkNodes env (splitDocuments env post)
        (g1.nextId + (splitDocuments env pre).length + (env.splitFn d.text).length)
        ((splitDocuments env pre).length + (env.splitFn d.text).length),
      x ∈ g3.nodes := by
    intro x hx
    rw [hnodesdec]
    exact List.mem_append_right _ hx
  have hallp : allPairs env (tp.filterMap loadDocument) g1.nextId =
      allPairs env pre g1.nextId ++
        (consecPairs (g1.nextId + (splitDocuments env pre).length)
            (env.splitFn d.text).length ++
          allPairs env post
            (g1.nextId + (splitDocuments env pre).length + (env.splitFn d.text).length)) := by
    rw [hde, allPairs_append, allPairs]
  have hfilt1 : g1.edges.filter (fun e =>
      idSource g3 e.1 == some f.path && idSource g3 e.2 == some f.path) = [] := by
    apply filter_eq_nil_of
    intro e he
    obtain ⟨a, ha, b, hb, he2, _⟩ := hgwg1.2.2 e he
    have hmem3 : a ∈ g3.nodes := by
      rw [hnodes3, hnodes2]
      exact List.mem_append_left _ ha
    have hida : idSource g3 a.1 = some a.2.source := idSource_of_mem g3 hgwg3.1 a hmem3
    have hasrc : ¬(a.2.source = f.path) := hnosrc1 a ha f hf
    have hbeq : (idSource g3 a.1 == some f.path) = false := by
      rw [hida]
      exact beq_eq_false_iff_ne.mpr (fun hco => hasrc (Option.some.inj hco))
    show (idSource g3 e.1 == some f.path && idSource g3 e.2 == some f.path) = false
    rw [he2]
    show (idSource g3 a.1 == some f.path && idSource g3 b.1 == some f.path) = false
    rw [hbeq, Bool.false_and]
  have hfilt2 : (allPairs env pre g1.nextId).filter (fun e =>
      idSource g3 e.1 == some f.path && idSource g3 e.2 == some f.path) = [] := by
    apply filter_eq_nil_of
    intro p hp
    obtain ⟨d2, hd2, hid1, _⟩ := allPairs_idSource env g3 hgwg3.1 pre g1.nextId 0 hsubpre p hp
    have hne : ¬(d2.source = f.path) := by
      intro hco
      exact hdpre d2 hd2 (by rw [hco, hdf])
    have hbeq : (idSource g3 p.1 == some f.path) = false := by
      rw [hid1]
      exact beq_eq_false_iff_ne.mpr (fun hco => hne (Option.some.inj hco))
    show (idSource g3 p.1 == some f.path && idSource g3 p.2 == some f.path) = false
    rw [hbeq, Bool.false_and]
  have hfilt4 : (allPairs env post
        (g1.nextId + (splitDocuments env pre).length + (env.splitFn d.text).length)).filter
      (fun e => idSource g3 e.1 == some f.path && idSource g3 e.2 == some f.path) = [] := by
    apply filter_eq_nil_of
    intro p hp
    obtain ⟨d2, hd2, hid1, _⟩ := allPairs_idSource env g3 hgwg3.1 post
      (g1.nextId + (splitDocuments env pre).length + (env.splitFn d.text).length)
      ((splitDocuments env pre).length + (env.splitFn d.text).length) hsubpost p hp
    have hne : ¬(d2.source = f.path) := by
      intro hco
      exact hdpost d2 hd2 (by rw [hco, hdf])
    have hbeq : (idSource g3 p.1 == some f.path) = false := by
      rw [hid1]
      exact beq_eq_false_iff_ne.mpr (fun hco => hne (Option.some.inj hco))
    show (idSource g3 p.1 == some f.path && idSource g3 p.2 == some f.path) = false
    rw [hbeq, Bool.false_and]
  have hfilt3 : (consecPairs (g1.nextId + (splitDocuments env pre).length)
        (env.splitFn d.text).length).filter
      (fun e => idSource g3 e.1 == some f.path && idSource g3 e.2 == some f.path) =
      consecPairs (g1.nextId + (splitDocuments env pre).length)
        (env.splitFn d.text).length := by
    rw [List.filter_eq_self]
    intro p hp
    obtain ⟨i, hi, rfl⟩ := consecPairs_mem _ _ p hp
    obtain ⟨c1, hc1, hs1⟩ := chunkRun_mem_of_lt env d (env.splitFn d.text)
      (g1.nextId + (splitDocuments env pre).length) ((splitDocuments env pre).length) i
      (by omega)
    obtain ⟨c2, hc2, hs2⟩ := chunkRun_mem_of_lt env d (env.splitFn d.text)
      (g1.nextId + (splitDocuments env pre).length) ((splitDocuments env pre).length) (i + 1)
      hi
    have hm1 : (g1.nextId + (splitDocuments env pre).length + i, c1) ∈ g3.nodes := by
      rw [hnodesdec]
      exact List.mem_append_left _ (List.mem_append_right _ hc1)
    have hm2 : (g1.nextId + (splitDocuments env pre).length + (i + 1), c2) ∈ g3.nodes := by
      rw [hnodesdec]
      exact List.mem_append_left _ (List.mem_append_right _ hc2)
    have h1 : idSource g3 (g1.nextId + (splitDocuments env pre).length + i) =
        some c1.source :=
      idSource_of_mem g3 hgwg3.1 (g1.nextId + (splitDocuments env pre).length + i, c1) hm1
    have h2 : idSource g3 (g1.nextId + (splitDocuments env pre).length + i + 1) =
        some c2.source :=
      idSource_of_mem g3 hgwg3.1
        (g1.nextId + (splitDocuments env pre).length + (i + 1), c2) hm2
    show (idSource g3 (g1.nextId + (splitDocuments env pre).length + i) == some f.path &&
      idSource g3 (g1.nextId + (splitDocuments env pre).length + i + 1) == some f.path) = true
    rw [h1, h2, hs1, hs2, hdf]
    simp
  have hea : edgesAmong g3 f.path =
      consecPairs (g1.nextId + (splitDocuments env pre).length)
        (env.splitFn d.text).length := by
    rw [edgesAmong, hedges3, hallp]
    rw [List.filter_append, List.filter_append, List.filter_append]
    rw [hfilt1, hfilt2, hfilt3, hfilt4]
    rw [List.nil_append, List.nil_append, List.append_nil]
  refine ⟨g1.nextId + (splitDocuments env pre).length, (splitDocuments env pre).length,
    ?_, hea, ?_⟩
  · rw [nodesOfSource, hnodesdec, ← hdf]
    rw [List.filter_append, List.filter_append]
    rw [filter_eq_nil_of _ _ hPsrc, filter_eq_nil_of _ _ hQsrc, chunkRun_filter_self]
    rw [List.nil_append, List.append_nil]
  · rw [hea, consecPairs_length]

/-- In a full-processing build (non-empty `toProcess` with at least one
loadable document), the final graph is the merge fold over the chunk
creation over the detach fold, whichever way the marking phase ends. -/
theorem build_full_graph (env : Env) (files : List SrcFile) (s0 : SysState)
    (tp un : List SrcFile) (force : Bool)
    (hcat : categorizeFiles env (buildS1 s0 files).tracking force files = some (tp, un))
    (htp : tp ≠ []) (hdocs : tp.filterMap loadDocument ≠ []) (hfe : files ≠ []) :
    (build env (some files) force s0).1.graph =
      tp.foldl (fun g f => mergeNextChunkEdges f.path g)
        (createChunkNodes env (splitDocuments env (tp.filterMap loadDocument))
          (tp.foldl (fun g f => detachDeleteBySource f.path g) (buildS1 s0 files).graph)).1 := by
  have htpe : tp.isEmpty = false := by
    cases tp with
    | nil => exact absurd rfl htp
    | cons a l => rfl
  have hde : (tp.filterMap loadDocument).isEmpty = false := by
    cases hdd : tp.filterMap loadDocument with
    | nil => exact absurd hdd hdocs
    | cons a l => rfl
  rw [build_ne_nil env files force s0 hfe, hcat]
  simp only [htpe, hde, Bool.false_eq_true, if_false]
  cases hm : markFilesProcessed env tp (buildS1 s0 files).tracking with
  | mk tr ok =>
    cases ok with
    | true => rfl
    | false => rfl

/-- C1: For every source file whose text is split into n chunks in a
build, after the build exactly n-1 NEXT_CHUNK edges exist among that
file's Chunk nodes, each linking the chunk with sequence index i to the
chunk with sequence index i+1 for all 0 ≤ i < n-1 (the file's nodes
form one consecutive run of ids and chunk indices, and its edges are
exactly the consecutive pairs of that run), and no NEXT_CHUNK edge
links chunks of two different source files (every edge's two endpoints
resolve to the same source).  Hypotheses: the store is well-formed, the
listing has no duplicate paths, and the embedding service is up (a
failed embedding skips a chunk, which is the separately analysed
per-item degradation). -/
theorem build_sequential_edge_correctness (env : Env) (files : List SrcFile) (s0 : SysState)
    (tp un : List SrcFile) (force : Bool)
    (hwf : GWF s0.graph)
    (hnd : (files.map (fun f => f.path)).Nodup)
    (hemb : ∀ t, (env.embedFn t).isSome = true)
    (hcat : categorizeFiles env (buildS1 s0 files).tracking force files = some (tp, un)) :
    (∀ e ∈ (build env (some files) force s0).1.graph.edges,
      ∃ src, idSource (build env (some files) force s0).1.graph e.1 = some src ∧
        idSource (build env (some files) force s0).1.graph e.2 = some src) ∧
    (∀ f ∈ tp, ∀ d, loadDocument f = some d →
      ∃ base off,
        nodesOfSource (build env (some files) force s0).1.graph f.path =
          chunkRun env d base off (env.splitFn d.text) ∧
        edgesAmong (build env (some files) force s0).1.graph f.path =
          consecPairs base (env.splitFn d.text).length ∧
        (edgesAmong (build env (some files) force s0).1.graph f.path).length =
          (env.splitFn d.text).length - 1) := by
  have hgw1 : GWF (buildS1 s0 files).graph := by
    have hrm : (buildS1 s0 files).graph =
        (deletedPaths s0.tracking (files.map (fun f => f.path))).foldl
          (fun g p => detachDeleteBySource p g) s0.graph := by
      unfold buildS1
      exact removeDeletedFiles_graph s0 (files.map (fun f => f.path))
    rw [hrm]
    exact GWF_foldl_detach _ _ hwf
  by_cases hfe : files = []
  · subst hfe
    have htp0 : tp = [] := by
      rw [categorizeFiles] at hcat
      simp at hcat
      exact hcat.1
    subst htp0
    have hb : build env (some []) force s0 = (buildS1 s0 [], true) := rfl
    rw [hb]
    exact ⟨GWF_edges_sameSource _ hgw1, fun f hf => absurd hf (List.not_mem_nil f)⟩
  · by_cases htp : tp = []
    · subst htp
      have hb : build env (some files) force s0 =
          ({ buildS1 s0 files with retrieverInit := true }, true) := by
        rw [build_ne_nil env files force s0 hfe, hcat]
        rfl
      rw [hb]
      exact ⟨GWF_edges_sameSource _ hgw1, fun f hf => absurd hf (List.not_mem_nil f)⟩
    · by_cases hdocs : tp.filterMap loadDocument = []
      · have htpe : tp.isEmpty = false := by
          cases tp with
          | nil => exact absurd rfl htp
          | cons a l => rfl
        have hb : build env (some files) force s0 = (buildS1 s0 files, true) := by
          rw [build_ne_nil env files force s0 hfe, hcat]
          simp only [htpe, Bool.false_eq_true, if_false, hdocs]
          rfl
        rw [hb]
        refine ⟨GWF_edges_sameSource _ hgw1, ?_⟩
        intro f hf d hld
        exact absurd (hdocs ▸ List.mem_filterMap.mpr ⟨f, hf, hld⟩) (List.not_mem_nil d)
      · have hGfull := build_full_graph env files s0 tp un force hcat htp hdocs hfe
        have hndtp : (tp.map (fun f => f.path)).Nodup :=
          hnd.sublist
            ((categorizeFiles_sublist env _ force files tp un hcat).map (fun f => f.path))
        have hmain := graph_pipeline_spec env tp (buildS1 s0 files).graph
          (tp.foldl (fun g f => detachDeleteBySource f.path g) (buildS1 s0 files).graph)
          ((createChunkNodes env (splitDocuments env (tp.filterMap loadDocument))
            (tp.foldl (fun g f => detachDeleteBySource f.path g) (buildS1 s0 files).graph)).1)
          (tp.foldl (fun g f => mergeNextChunkEdges f.path g)
            (createChunkNodes env (splitDocuments env (tp.filterMap loadDocument))
              (tp.foldl (fun g f => detachDeleteBySource f.path g)
                (buildS1 s0 files).graph)).1)
          hgw1 hndtp hemb rfl rfl rfl
        rw [hGfull]
        exact ⟨GWF_edges_sameSource _ hmain.1, hmain.2⟩

/-- Instantiating the sequential-edge theorem on a fresh build of one
three-chunk markdown file. -/
theorem build_sequential_edge_correctness_witness :
    (∀ e ∈ (build exEnv (some [fileA]) false SysState.empty).1.graph.edges,
      ∃ src, idSource (build exEnv (some [fileA]) false SysState.empty).1.graph e.1 = some src ∧
        idSource (build exEnv (some [fileA]) false SysState.empty).1.graph e.2 = some src) ∧
    (∀ f ∈ [fileA], ∀ d, loadDocument f = some d →
      ∃ base off,
        nodesOfSource (build exEnv (some [fileA]) false SysState.empty).1.graph f.path =
          chunkRun exEnv d base off (exEnv.splitFn d.text) ∧
        edgesAmong (build exEnv (some [fileA]) false SysState.empty).1.graph f.path =
          consecPairs base (exEnv.splitFn d.text).length ∧
        (edgesAmong (build exEnv (some [fileA]) false SysState.empty).1.graph f.path).length =
          (exEnv.splitFn d.text).length - 1) :=
  build_sequential_edge_correctness exEnv [fileA] SysState.empty [fileA] [] false
    ⟨List.nodup_nil, fun n hn => absurd hn (List.not_mem_nil n),
      fun e he => absurd he (List.not_mem_nil e)⟩
    (by decide) (fun t => rfl) (by decide)

end GraphRAG
